import Mathlib

/-!
Verification of the `bitcoin-rs` account-model blockchain node.

This file shallowly embeds the core data structures and algorithms of the
repository (Merkle tree over the transaction list, the binary radix state
trie, block execution and commit, the miner's template assembly and the
gossip worker's block-queue drain loop) as executable Lean definitions,
and proves the specification claims about them.

Modelling conventions:
* 32-byte hashes (`H256`) are modelled as `Nat`; the big-endian unsigned
  ordering of the source is exactly the `Nat` ordering.
* 20-byte addresses are modelled as a structure holding a list of byte
  values (`Nat`s below 256); validity is a predicate.
* SHA-256 itself is not modelled: hash functions enter the development as
  explicit function parameters (`hp`, `blockHash`, ...) wherever the code
  calls them, and content-addressing of state-trie nodes is modelled by
  working with the decoded node trees directly (the spec's invariant that
  a node hash uniquely determines the node's contents).
* `u64` arithmetic is modelled as `Nat` arithmetic reduced mod `2^64`
  (the wrapping semantics of a release-profile Rust build).
-/

namespace BitcoinRs

/-- The constant `2^64`, the modulus of `u64` arithmetic. -/
def U64MOD : Nat := 18446744073709551616

/-- Wrapping `u64` addition (`u64::wrapping_add` semantics, the behaviour
of `+` in a release build). -/
def wadd (a b : Nat) : Nat := (a + b) % U64MOD

/-- Wrapping `u64` multiplication. -/
def wmul (a b : Nat) : Nat := (a * b) % U64MOD

/-! ## Merkle tree (`src/types/merkle.rs`)

The hash function `hash_pair` (SHA-256 of the 64-byte concatenation) is an
abstract parameter `hp`.  A `MerkleTree` value in the source is the list of
levels `values`; level 0 is the list of leaf hashes and each next level
pairs adjacent entries, duplicating an odd last entry. -/

/-- One level-combining step of `MerkleTree::new`: `current.chunks(2)`,
hashing `hash_pair(left, right)` and duplicating an odd last element
(`hash_pair(left, left)`). -/
def nextLevel (hp : Nat → Nat → Nat) : List Nat → List Nat
  | [] => []
  | [x] => [hp x x]
  | x :: y :: rest => hp x y :: nextLevel hp rest

theorem nextLevel_length (hp : Nat → Nat → Nat) :
    ∀ l : List Nat, (nextLevel hp l).length = (l.length + 1) / 2
  | [] => rfl
  | [_] => by simp [nextLevel]
  | x :: y :: rest => by
      simp [nextLevel, nextLevel_length hp rest]
      omega

/-- The root as computed by `MerkleTree::new` followed by `root()` on a
non-empty leaf list: iterate `nextLevel` until a single entry remains
(`while values.last().len() > 1`), then take that entry. -/
def rootFrom (hp : Nat → Nat → Nat) (l : List Nat) : Nat :=
  if h : l.length ≤ 1 then l.headD 0
  else rootFrom hp (nextLevel hp l)
termination_by l.length
decreasing_by
  simp only [nextLevel_length]
  omega

/-- Source `MerkleTree::root`: the all-zero default hash for the empty tree,
otherwise the single entry of the top level. -/
def merkleRoot (hp : Nat → Nat → Nat) (leaves : List Nat) : Nat :=
  if leaves.isEmpty then 0 else rootFrom hp leaves

/-- The sibling pushed by one iteration of the `MerkleTree::proof` loop:
`values[level][cur_idx ^ 1]` when in range, else `values[level][cur_idx]`
(self as sibling when the last element is duplicated). -/
def proofSibling (l : List Nat) (idx : Nat) : Nat :=
  if idx ^^^ 1 < l.length then l.getD (idx ^^^ 1) 0 else l.getD idx 0

/-- The loop of `MerkleTree::proof` over all levels except the last:
collect the sibling at each level, halving the index. -/
def proofFrom (hp : Nat → Nat → Nat) (l : List Nat) (idx : Nat) : List Nat :=
  if h : l.length ≤ 1 then []
  else proofSibling l idx :: proofFrom hp (nextLevel hp l) (idx / 2)
termination_by l.length
decreasing_by
  simp only [nextLevel_length]
  omega

/-- Source `MerkleTree::proof`: empty proof when the tree is empty or the index is
out of range, otherwise the sibling path. -/
def merkleProof (hp : Nat → Nat → Nat) (leaves : List Nat) (index : Nat) :
    List Nat :=
  if leaves.isEmpty ∨ leaves.length ≤ index then []
  else proofFrom hp leaves index

/-- The recomputation loop of `verify`: combine the running hash with each
proof element, concatenation order decided by bit 0 of the running index. -/
def verifyLoop (hp : Nat → Nat → Nat) (cur : Nat) (idx : Nat) :
    List Nat → Nat
  | [] => cur
  | p :: rest =>
      verifyLoop hp (if idx % 2 = 0 then hp cur p else hp p cur) (idx / 2) rest

/-- Source `merkle::verify`: reject an out-of-range index, otherwise recompute
bottom-up and compare with the root. -/
def verify (hp : Nat → Nat → Nat) (root datum : Nat) (proof : List Nat)
    (index leaf_size : Nat) : Bool :=
  if leaf_size ≤ index then false
  else verifyLoop hp datum index proof == root

theorem xor_one_of_even (m : Nat) : (2 * m) ^^^ 1 = 2 * m + 1 := by
  have h := Nat.xor_bit false m true 0
  simp [Nat.bit] at h
  omega

theorem xor_one_of_odd (m : Nat) : (2 * m + 1) ^^^ 1 = 2 * m := by
  have h := Nat.xor_bit true m true 0
  simp [Nat.bit] at h
  omega

/-- Entry `k` of the next level is the pairwise hash of entries `2k` and
`2k+1` of the current level, with the last entry duplicated when `2k+1` is
out of range. -/
theorem nextLevel_getD (hp : Nat → Nat → Nat) :
    ∀ (l : List Nat) (k : Nat), 2 * k < l.length →
      (nextLevel hp l).getD k 0 =
        if 2 * k + 1 < l.length then hp (l.getD (2 * k) 0) (l.getD (2 * k + 1) 0)
        else hp (l.getD (2 * k) 0) (l.getD (2 * k) 0)
  | [], k, hk => by simp at hk
  | [x], k, hk => by
      have : k = 0 := by simp at hk; omega
      subst this
      simp [nextLevel]
  | x :: y :: rest, 0, hk => by
      simp [nextLevel]
  | x :: y :: rest, k + 1, hk => by
      have hrest : 2 * k < rest.length := by simp at hk; omega
      have ih := nextLevel_getD hp rest k hrest
      have ea : (x :: y :: rest).getD (2 * (k + 1)) 0 = rest.getD (2 * k) 0 := by
        rw [show 2 * (k + 1) = 2 * k + 1 + 1 by omega]
        simp
      have eb : (x :: y :: rest).getD (2 * (k + 1) + 1) 0 =
          rest.getD (2 * k + 1) 0 := by
        rw [show 2 * (k + 1) + 1 = 2 * k + 1 + 1 + 1 by omega]
        simp
      have ec : (nextLevel hp (x :: y :: rest)).getD (k + 1) 0 =
          (nextLevel hp rest).getD k 0 := by
        simp [nextLevel]
      rw [ec, ih, ea, eb]
      by_cases h : 2 * k + 1 < rest.length
      · rw [if_pos h, if_pos (by simp; omega)]
      · rw [if_neg h, if_neg (by simp; omega)]

/-- Core soundness of proof generation against verification: running the
`verify` loop from leaf `idx` along the generated sibling path reproduces
the root of the level stack. -/
theorem verifyLoop_proofFrom (hp : Nat → Nat → Nat) (l : List Nat) (idx : Nat)
    (hidx : idx < l.length) :
    verifyLoop hp (l.getD idx 0) idx (proofFrom hp l idx) = rootFrom hp l := by
  by_cases h1 : l.length ≤ 1
  · rw [proofFrom, dif_pos h1, rootFrom, dif_pos h1]
    have : idx = 0 := by omega
    subst this
    cases l with
    | nil => simp at hidx
    | cons a t => simp [verifyLoop]
  · rw [proofFrom, dif_neg h1, rootFrom, dif_neg h1]
    have hnext : (nextLevel hp l).length = (l.length + 1) / 2 :=
      nextLevel_length hp l
    have hidx2 : idx / 2 < (nextLevel hp l).length := by omega
    have ihstep := verifyLoop_proofFrom hp (nextLevel hp l) (idx / 2) hidx2
    rw [verifyLoop]
    have hcomb :
        (if idx % 2 = 0 then hp (l.getD idx 0) (proofSibling l idx)
          else hp (proofSibling l idx) (l.getD idx 0)) =
        (nextLevel hp l).getD (idx / 2) 0 := by
      rcases Nat.even_or_odd idx with ⟨m, hm⟩ | ⟨m, hm⟩
      · have hm2 : idx = 2 * m := by omega
        subst hm2
        have hx : 2 * m ^^^ 1 = 2 * m + 1 := xor_one_of_even m
        have hdiv : 2 * m / 2 = m := by omega
        rw [if_pos (by omega), hdiv, nextLevel_getD hp l m (by omega)]
        unfold proofSibling
        rw [hx]
        by_cases hr : 2 * m + 1 < l.length
        · rw [if_pos hr, if_pos hr]
        · rw [if_neg hr, if_neg hr]
      · have hm2 : idx = 2 * m + 1 := by omega
        subst hm2
        have hx : 2 * m + 1 ^^^ 1 = 2 * m := xor_one_of_odd m
        have hdiv : (2 * m + 1) / 2 = m := by omega
        rw [if_neg (by omega), hdiv, nextLevel_getD hp l m (by omega)]
        unfold proofSibling
        rw [hx, if_pos (by omega), if_pos (by omega)]
    rw [hcomb, ihstep]
termination_by l.length
decreasing_by
  simp only [nextLevel_length]
  omega

/-- C7: for every non-empty data list and every index `i` below its length,
verifying the hash of element `i` with the proof produced for `i` against
the tree's root succeeds, for any pairing hash function `hp` and any item
hash function `h` (the odd duplicated-last case included). -/
theorem merkle_verify_proof {α : Type} (hp : Nat → Nat → Nat) (h : α → Nat)
    (data : List α) (i : Nat) (hi : i < data.length) :
    verify hp (merkleRoot hp (data.map h)) ((data.map h).getD i 0)
      (merkleProof hp (data.map h) i) i data.length = true := by
  have hne : (data.map h).isEmpty = false := by
    cases data with
    | nil => simp at hi
    | cons a t => simp
  have hlen : (data.map h).length = data.length := by simp
  rw [verify, if_neg (by omega)]
  rw [merkleRoot, hne, merkleProof]
  simp only [hne, Bool.false_eq_true, false_or, hlen]
  rw [if_neg (by omega)]
  simp only [Bool.cond_eq_ite, beq_iff_eq]
  rw [verifyLoop_proofFrom hp (data.map h) i (by omega)]
  simp

/-! ## Accounts and addresses

`Account` is `src/blockchain/mod.rs`; `Address` is modelled from the spec:
the file `src/types/address.rs` is not present in the sources, the spec
defines an address as a 20-byte value with byte-lexicographic ordering. -/

/-- Source `Account { nonce: u64, balance: u64 }`, values kept below `2^64`. -/
structure Account where
  nonce : Nat
  balance : Nat
deriving DecidableEq

/-- Source `Account::default()` / `unwrap_or_default()`: `{0, 0}`. -/
def Account.dflt : Account := ⟨0, 0⟩

/-- Modelled from the spec: `Address` (`src/types/address.rs` is absent
from the sources) is a 20-byte value; we carry the byte list. -/
structure Addr where
  bytes : List Nat
deriving DecidableEq

/-- A well-formed address: exactly 20 bytes, each below 256. -/
def Addr.valid (a : Addr) : Prop :=
  a.bytes.length = 20 ∧ ∀ b ∈ a.bytes, b < 256

instance (a : Addr) : Decidable a.valid := by
  unfold Addr.valid
  infer_instance

/-! ## State trie (`src/types/state_trie.rs`)

The trie is content-addressed: every slot stores the SHA-256 hash of its
node and the node is fetched from the store by that hash.  Since node
hashes uniquely determine node contents (spec §3, "the hash uniquely
determines contents"), the embedding works with the decoded node trees
directly: a subtree stands for its root hash, the store lookup is the
identity, and a hash absent from the store behaves as `Empty` (matching
`get_state_node(...).unwrap_or(Empty)` on the write path and the `?`
propagation to `None` on the read path).  `new_nodes`, a map keyed by node
hash in the source, becomes the list of created subtrees (content equal
keys collapse in both models). -/

/-- A decoded state-trie node tree (`NodeData` with hashes resolved). -/
inductive Trie where
  | empty : Trie
  | leaf (addr : Addr) (acct : Account) : Trie
  | branch (l r : Trie) : Trie
deriving DecidableEq

/-- Source `get_bit_at`: bit `index` of the address, high bit first; 0 for any
index at or above 160. -/
def get_bit_at (a : Addr) (index : Nat) : Nat :=
  if 160 ≤ index then 0
  else (a.bytes.getD (index / 8) 0) >>> (7 - index % 8) &&& 1

/-- Association-list lookup keyed by address (the behaviour of the
`HashMap` reads in the source). -/
def lookupA {β : Type} : List (Addr × β) → Addr → Option β
  | [], _ => none
  | (k, v) :: rest, a => if k = a then some v else lookupA rest a

/-- Source `HashMap::insert`: replace the binding of an existing key, otherwise
add a new binding. -/
def upsertA {β : Type} : List (Addr × β) → Addr → β → List (Addr × β)
  | [], a, v => [(a, v)]
  | (k, w) :: rest, a, v =>
      if k = a then (k, v) :: rest else (k, w) :: upsertA rest a v

/-- Source `StateTrie::get_recursive`: descend by address bit, answer `Some` only
at a leaf whose key matches exactly. -/
def trieGet : Trie → Addr → Nat → Option Account
  | .empty, _, _ => none
  | .leaf b acct, a, _ => if b = a then some acct else none
  | .branch l r, a, depth =>
      if get_bit_at a depth = 0 then trieGet l a (depth + 1)
      else trieGet r a (depth + 1)

/-- Source `build_subtree_from_scratch`.  The source recurses on the partitioned
halves with no explicit bound; the model adds a `fuel` parameter consumed
only on the two-or-more-items branch (for the pairwise-distinct 20-byte
addresses the source feeds it, depth 160 is never exceeded — claim C10 —
so any fuel of at least 160 reproduces the source).  Returns the subtree
together with the list of created nodes; like the source, the `Empty`
result is not recorded as a new node, leaves and branches are. -/
def build_subtree_from_scratch (fuel : Nat)
    (items : List (Addr × Account)) (depth : Nat) : Trie × List Trie :=
  match items, fuel with
  | [], _ => (.empty, [])
  | [(a, acct)], _ => (.leaf a acct, [.leaf a acct])
  | _ :: _ :: _, 0 => (.empty, [])
  | p :: q :: rest, fuel + 1 =>
      let items := p :: q :: rest
      let li := items.filter (fun u => get_bit_at u.1 depth == 0)
      let ri := items.filter (fun u => !(get_bit_at u.1 depth == 0))
      let lres := build_subtree_from_scratch fuel li (depth + 1)
      let rres := build_subtree_from_scratch fuel ri (depth + 1)
      (.branch lres.1 rres.1, .branch lres.1 rres.1 :: (lres.2 ++ rres.2))

/-- Source `insert_batch_recursive`: keep an untouched subtree when there are no
updates for it; rebuild from scratch at a leaf or an empty slot (folding a
non-overridden leaf back into the batch); partition and recurse at a
branch, always emitting a fresh branch node. -/
def insert_batch_recursive (fuel : Nat) :
    Trie → List (Addr × Account) → Nat → Trie × List Trie
  | t, [], _ => (t, [])
  | .empty, u :: us, depth => build_subtree_from_scratch fuel (u :: us) depth
  | .leaf curr_addr curr_acct, u :: us, depth =>
      let updates := u :: us
      if updates.any (fun p => p.1 == curr_addr) then
        build_subtree_from_scratch fuel updates depth
      else
        build_subtree_from_scratch fuel
          (updates ++ [(curr_addr, curr_acct)]) depth
  | .branch l r, u :: us, depth =>
      let updates := u :: us
      let lu := updates.filter (fun p => get_bit_at p.1 depth == 0)
      let ru := updates.filter (fun p => !(get_bit_at p.1 depth == 0))
      let lres := insert_batch_recursive fuel l lu (depth + 1)
      let rres := insert_batch_recursive fuel r ru (depth + 1)
      (.branch lres.1 rres.1, .branch lres.1 rres.1 :: (lres.2 ++ rres.2))

/-- Source `StateTrie::insert_batch`: empty batch returns the current root with
no new nodes, otherwise start the recursion at depth 0.  The update list
is the iteration order of the source's `HashMap<Address, Account>`. -/
def insert_batch (fuel : Nat) (t : Trie) (updates : List (Addr × Account)) :
    Trie × List Trie :=
  if updates.isEmpty then (t, [])
  else insert_batch_recursive fuel t updates 0

/-- Helper: the empty batch is the identity (first branch of
`insert_batch`). -/
theorem insert_batch_nil (fuel : Nat) (t : Trie) :
    insert_batch fuel t [] = (t, []) := rfl

/-- C9: `insert_batch` applied to the empty update map returns the current
root unchanged and an empty `new_nodes` map, for every trie state. -/
theorem insert_batch_empty_updates (fuel : Nat) (t : Trie) :
    insert_batch fuel t [] = (t, []) := rfl

/-! ### Bit-level facts about addresses -/

theorem get_bit_at_le_one (a : Addr) (i : Nat) : get_bit_at a i ≤ 1 := by
  unfold get_bit_at
  split
  · omega
  · have := Nat.and_le_right (n := a.bytes.getD (i / 8) 0 >>> (7 - i % 8)) (m := 1)
    omega

theorem get_bit_at_of_ge (a : Addr) (i : Nat) (hi : 160 ≤ i) :
    get_bit_at a i = 0 := by
  unfold get_bit_at
  rw [if_pos hi]

/-- Two distinct bytes disagree at one of their eight bits. -/
theorem byte_ne_exists_bit (x y : Nat) (hx : x < 256) (hy : y < 256)
    (hne : x ≠ y) : ∃ s, s < 8 ∧ x >>> s &&& 1 ≠ y >>> s &&& 1 := by
  by_contra hall
  push_neg at hall
  apply hne
  apply Nat.eq_of_testBit_eq
  intro i
  by_cases hi : i < 8
  · have h := hall i hi
    rw [Nat.testBit_to_div_mod, Nat.testBit_to_div_mod]
    rw [Nat.shiftRight_eq_div_pow, Nat.shiftRight_eq_div_pow,
      Nat.and_one_is_mod, Nat.and_one_is_mod] at h
    rw [h]
  · have h8 : (256 : Nat) ≤ 2 ^ i := by
      calc (256 : Nat) = 2 ^ 8 := by norm_num
      _ ≤ 2 ^ i := Nat.pow_le_pow_right (by omega) (by omega)
    rw [Nat.testBit_to_div_mod, Nat.testBit_to_div_mod,
      Nat.div_eq_of_lt (by omega), Nat.div_eq_of_lt (by omega)]

/-- Two equal-length lists that differ have a differing entry. -/
theorem list_ne_exists_getD : ∀ (l₁ l₂ : List Nat), l₁.length = l₂.length →
    l₁ ≠ l₂ → ∃ j, j < l₁.length ∧ l₁.getD j 0 ≠ l₂.getD j 0
  | [], [], _, hne => absurd rfl hne
  | [], _ :: _, hlen, _ => by simp at hlen
  | _ :: _, [], hlen, _ => by simp at hlen
  | a :: t₁, b :: t₂, hlen, hne => by
      by_cases hab : a = b
      · subst hab
        have ht : t₁ ≠ t₂ := by intro h; exact hne (by rw [h])
        obtain ⟨j, hj, hd⟩ := list_ne_exists_getD t₁ t₂ (by simpa using hlen) ht
        exact ⟨j + 1, by simpa using Nat.succ_lt_succ hj, by simpa using hd⟩
      · exact ⟨0, by simp, by simpa using hab⟩

/-- Two distinct valid addresses disagree at some bit index below 160. -/
theorem addr_ne_exists_diff_bit (a b : Addr) (ha : a.valid) (hb : b.valid)
    (hne : a ≠ b) : ∃ i, i < 160 ∧ get_bit_at a i ≠ get_bit_at b i := by
  obtain ⟨hal, hab⟩ := ha
  obtain ⟨hbl, hbb⟩ := hb
  have hbytes : a.bytes ≠ b.bytes := by
    intro h
    exact hne (by cases a; cases b; simpa using h)
  obtain ⟨j, hj, hd⟩ := list_ne_exists_getD a.bytes b.bytes (by omega) hbytes
  have hja : a.bytes.getD j 0 < 256 := by
    apply hab
    rw [List.getD_eq_getElem a.bytes 0 (by omega)]
    exact List.getElem_mem _
  have hjb : b.bytes.getD j 0 < 256 := by
    apply hbb
    rw [List.getD_eq_getElem b.bytes 0 (by omega)]
    exact List.getElem_mem _
  obtain ⟨s, hs, hsd⟩ := byte_ne_exists_bit _ _ hja hjb hd
  refine ⟨8 * j + (7 - s), by omega, ?_⟩
  have hdiv : (8 * j + (7 - s)) / 8 = j := by omega
  have hmod : (8 * j + (7 - s)) % 8 = 7 - s := by omega
  have hsub : 7 - (7 - s) = s := by omega
  unfold get_bit_at
  rw [if_neg (by omega), if_neg (by omega), hdiv, hmod, hsub]
  exact hsd

/-! ### Invariants of the batch-insert recursion

`Bpre items d` captures what holds of the update list of every recursive
call the source makes at depth `d`: all addresses valid, pairwise
distinct (they are keys of one `HashMap`), and pairwise equal on all bits
below `d` (they reached this subtree through the same partitions). -/

/-- Addresses `x` and `y` coincide on every bit index below `d`. -/
def agreesBelow (x y : Addr) (d : Nat) : Prop :=
  ∀ i, i < d → get_bit_at x i = get_bit_at y i

/-- Invariant of the update list at recursion depth `d`. -/
def Bpre (items : List (Addr × Account)) (d : Nat) : Prop :=
  (∀ p ∈ items, p.1.valid) ∧
    items.Pairwise (fun p q => p.1 ≠ q.1) ∧
    ∀ p ∈ items, ∀ q ∈ items, agreesBelow p.1 q.1 d

/-- With two or more pairwise-distinct valid entries still together, some
bit in `[d, 160)` separates them, so the depth is below 160. -/
theorem Bpre_depth_lt (p q : Addr × Account) (rest : List (Addr × Account))
    (d : Nat) (hB : Bpre (p :: q :: rest) d) : d < 160 := by
  obtain ⟨hv, hpw, hag⟩ := hB
  have hne : p.1 ≠ q.1 := by
    have hrel := List.rel_of_pairwise_cons hpw (show q ∈ q :: rest by simp)
    exact hrel
  obtain ⟨i, hi, hdiff⟩ := addr_ne_exists_diff_bit p.1 q.1
    (hv p (by simp)) (hv q (by simp)) hne
  have hga := hag p (by simp) q (by simp)
  by_contra hd
  exact hdiff (hga i (by omega))

/-- The two partition predicates used at depth `d` keep the invariant at
depth `d + 1`: filtering preserves validity and distinctness, and all
survivors share the value of bit `d`. -/
theorem Bpre_filter (items : List (Addr × Account)) (d : Nat)
    (f : Addr × Account → Bool) (hB : Bpre items d)
    (hsame : ∀ a b, f a = true → f b = true →
      get_bit_at a.1 d = get_bit_at b.1 d) :
    Bpre (items.filter f) (d + 1) := by
  obtain ⟨hv, hpw, hag⟩ := hB
  refine ⟨?_, List.Pairwise.filter f hpw, ?_⟩
  · intro u hu
    exact hv u (List.mem_of_mem_filter hu)
  · intro u hu w hw i hi
    have hum := List.mem_of_mem_filter hu
    have hwm := List.mem_of_mem_filter hw
    rcases Nat.lt_or_ge i d with h | h
    · exact hag u hum w hwm i h
    · have hieq : i = d := by omega
      subst hieq
      exact hsame u w (List.of_mem_filter hu) (List.of_mem_filter hw)

/-- First-match semantics of `Option::or` used to phrase "new value if
updated, else the old one". -/
def orElseO {β : Type} : Option β → Option β → Option β
  | some v, _ => some v
  | none, b => b

theorem lookupA_filter {β : Type} (x : Addr) (f : Addr × β → Bool) :
    ∀ l : List (Addr × β), (∀ u ∈ l, u.1 = x → f u = true) →
      lookupA (l.filter f) x = lookupA l x
  | [], _ => rfl
  | (k, v) :: rest, hkeep => by
      by_cases hk : k = x
      · subst hk
        have : f (k, v) = true := hkeep (k, v) (by simp) rfl
        simp [lookupA, List.filter_cons, this]
      · have ih := lookupA_filter x f rest
          (fun u hu hx => hkeep u (by simp [hu]) hx)
        by_cases hf : f (k, v) = true
        · simp [lookupA, List.filter_cons, hf, hk, ih]
        · simp only [List.filter_cons, Bool.not_eq_true] at *
          rw [if_neg (by simp [hf]), ih]
          simp [lookupA, hk]

theorem lookupA_append {β : Type} (x : Addr) :
    ∀ l₁ l₂ : List (Addr × β),
      lookupA (l₁ ++ l₂) x = orElseO (lookupA l₁ x) (lookupA l₂ x)
  | [], l₂ => rfl
  | (k, v) :: rest, l₂ => by
      by_cases hk : k = x
      · simp [lookupA, hk, orElseO]
      · simp [lookupA, hk, lookupA_append x rest l₂]

/-! ### Unfolding equations of `build_subtree_from_scratch` -/

theorem build_nil (fuel d : Nat) :
    build_subtree_from_scratch fuel [] d = (.empty, []) := by
  cases fuel <;> rfl

theorem build_single (fuel d : Nat) (a : Addr) (acct : Account) :
    build_subtree_from_scratch fuel [(a, acct)] d =
      (.leaf a acct, [.leaf a acct]) := by
  cases fuel <;> rfl

theorem build_cons2 (fuel d : Nat) (p q : Addr × Account)
    (rest : List (Addr × Account)) :
    build_subtree_from_scratch (fuel + 1) (p :: q :: rest) d =
      (.branch
        (build_subtree_from_scratch fuel
          ((p :: q :: rest).filter (fun u => get_bit_at u.1 d == 0)) (d + 1)).1
        (build_subtree_from_scratch fuel
          ((p :: q :: rest).filter (fun u => !(get_bit_at u.1 d == 0)))
          (d + 1)).1,
       .branch
        (build_subtree_from_scratch fuel
          ((p :: q :: rest).filter (fun u => get_bit_at u.1 d == 0)) (d + 1)).1
        (build_subtree_from_scratch fuel
          ((p :: q :: rest).filter (fun u => !(get_bit_at u.1 d == 0)))
          (d + 1)).1 ::
        ((build_subtree_from_scratch fuel
          ((p :: q :: rest).filter (fun u => get_bit_at u.1 d == 0))
          (d + 1)).2 ++
         (build_subtree_from_scratch fuel
          ((p :: q :: rest).filter (fun u => !(get_bit_at u.1 d == 0)))
          (d + 1)).2)) := rfl

/-- Hypotheses of `Bpre_filter` hold for the left partition predicate. -/
theorem same_bit_left (d : Nat) :
    ∀ a b : Addr × Account, (get_bit_at a.1 d == 0) = true →
      (get_bit_at b.1 d == 0) = true →
      get_bit_at a.1 d = get_bit_at b.1 d := by
  intro a b ha hb
  simp only [beq_iff_eq] at ha hb
  rw [ha, hb]

/-- Hypotheses of `Bpre_filter` hold for the right partition predicate:
bits are at most 1, so every non-zero bit equals 1. -/
theorem same_bit_right (d : Nat) :
    ∀ a b : Addr × Account, (!(get_bit_at a.1 d == 0)) = true →
      (!(get_bit_at b.1 d == 0)) = true →
      get_bit_at a.1 d = get_bit_at b.1 d := by
  intro a b ha hb
  simp only [Bool.not_eq_eq_eq_not, Bool.not_true, beq_eq_false_iff_ne,
    ne_eq] at ha hb
  have h1 := get_bit_at_le_one a.1 d
  have h2 := get_bit_at_le_one b.1 d
  omega

/-- Fuel-independence of the from-scratch rebuild (substance of C10): on a
pairwise-distinct list of valid addresses still unseparated at depth `d`,
any fuel of at least `160 - d` computes the same result, i.e. the source's
unbounded recursion is bounded by depth 160. -/
theorem build_subtree_fuel_congr :
    ∀ (f₁ f₂ : Nat) (items : List (Addr × Account)) (d : Nat),
      Bpre items d → 160 - d ≤ f₁ → 160 - d ≤ f₂ →
      build_subtree_from_scratch f₁ items d =
        build_subtree_from_scratch f₂ items d
  | _, _, [], d, _, _, _ => by rw [build_nil, build_nil]
  | _, _, [(a, acct)], d, _, _, _ => by rw [build_single, build_single]
  | 0, f₂, p :: q :: rest, d, hB, h₁, _ => by
      have := Bpre_depth_lt p q rest d hB
      omega
  | f₁ + 1, 0, p :: q :: rest, d, hB, _, h₂ => by
      have := Bpre_depth_lt p q rest d hB
      omega
  | f₁ + 1, f₂ + 1, p :: q :: rest, d, hB, h₁, h₂ => by
      rw [build_cons2, build_cons2]
      have hd := Bpre_depth_lt p q rest d hB
      have hL := build_subtree_fuel_congr f₁ f₂
        ((p :: q :: rest).filter (fun u => get_bit_at u.1 d == 0)) (d + 1)
        (Bpre_filter _ d _ hB (same_bit_left d)) (by omega) (by omega)
      have hR := build_subtree_fuel_congr f₁ f₂
        ((p :: q :: rest).filter (fun u => !(get_bit_at u.1 d == 0))) (d + 1)
        (Bpre_filter _ d _ hB (same_bit_right d)) (by omega) (by omega)
      rw [hL, hR]

/-- Reading any address from a from-scratch subtree built at depth `d`
yields exactly the association-list lookup in the batch. -/
theorem build_subtree_get :
    ∀ (fuel : Nat) (items : List (Addr × Account)) (d : Nat),
      Bpre items d → 160 - d ≤ fuel → ∀ x : Addr,
      trieGet (build_subtree_from_scratch fuel items d).1 x d =
        lookupA items x
  | fuel, [], d, _, _, x => by rw [build_nil]; rfl
  | fuel, [(a, acct)], d, _, _, x => by
      rw [build_single]
      simp [trieGet, lookupA]
  | 0, p :: q :: rest, d, hB, hf, x => by
      have := Bpre_depth_lt p q rest d hB
      omega
  | fuel + 1, p :: q :: rest, d, hB, hf, x => by
      rw [build_cons2]
      have hd := Bpre_depth_lt p q rest d hB
      by_cases hx : get_bit_at x d = 0
      · have ih := build_subtree_get fuel
          ((p :: q :: rest).filter (fun u => get_bit_at u.1 d == 0)) (d + 1)
          (Bpre_filter _ d _ hB (same_bit_left d)) (by omega) x
        show trieGet (.branch _ _) x d = _
        rw [trieGet, if_pos hx, ih]
        exact lookupA_filter x _ (p :: q :: rest)
          (fun u _ hux => by simp [hux, hx])
      · have ih := build_subtree_get fuel
          ((p :: q :: rest).filter (fun u => !(get_bit_at u.1 d == 0)))
          (d + 1) (Bpre_filter _ d _ hB (same_bit_right d)) (by omega) x
        show trieGet (.branch _ _) x d = _
        rw [trieGet, if_neg hx, ih]
        exact lookupA_filter x _ (p :: q :: rest)
          (fun u _ hux => by simp [hux, hx])

/-! ### Well-formedness of stored tries

A trie the source ever persists places each leaf on the path spelled by
its address bits.  `wfT t d` states this for a subtree rooted at depth
`d`, together with validity of the stored addresses. -/

/-- All `(address, account)` pairs stored at leaves of a subtree. -/
def leaves : Trie → List (Addr × Account)
  | .empty => []
  | .leaf a acct => [(a, acct)]
  | .branch l r => leaves l ++ leaves r

/-- Well-formedness of a subtree rooted at depth `d`. -/
def wfT : Trie → Nat → Prop
  | .empty, _ => True
  | .leaf a _, _ => a.valid
  | .branch l r, d =>
      (∀ p ∈ leaves l, get_bit_at p.1 d = 0) ∧
      (∀ p ∈ leaves r, get_bit_at p.1 d = 1) ∧
      wfT l (d + 1) ∧ wfT r (d + 1)

/-! ### Unfolding equations of `insert_batch_recursive` -/

theorem ins_nil (fuel d : Nat) (t : Trie) :
    insert_batch_recursive fuel t [] d = (t, []) := by
  cases t <;> rfl

theorem ins_empty_node (fuel d : Nat) (u : Addr × Account)
    (us : List (Addr × Account)) :
    insert_batch_recursive fuel .empty (u :: us) d =
      build_subtree_from_scratch fuel (u :: us) d := rfl

theorem ins_leaf (fuel d : Nat) (a : Addr) (acct : Account)
    (u : Addr × Account) (us : List (Addr × Account)) :
    insert_batch_recursive fuel (.leaf a acct) (u :: us) d =
      if (u :: us).any (fun p => p.1 == a) then
        build_subtree_from_scratch fuel (u :: us) d
      else build_subtree_from_scratch fuel ((u :: us) ++ [(a, acct)]) d := rfl

theorem ins_branch (fuel d : Nat) (l r : Trie) (u : Addr × Account)
    (us : List (Addr × Account)) :
    insert_batch_recursive fuel (.branch l r) (u :: us) d =
      (.branch
        (insert_batch_recursive fuel l
          ((u :: us).filter (fun p => get_bit_at p.1 d == 0)) (d + 1)).1
        (insert_batch_recursive fuel r
          ((u :: us).filter (fun p => !(get_bit_at p.1 d == 0))) (d + 1)).1,
       .branch
        (insert_batch_recursive fuel l
          ((u :: us).filter (fun p => get_bit_at p.1 d == 0)) (d + 1)).1
        (insert_batch_recursive fuel r
          ((u :: us).filter (fun p => !(get_bit_at p.1 d == 0))) (d + 1)).1 ::
        ((insert_batch_recursive fuel l
          ((u :: us).filter (fun p => get_bit_at p.1 d == 0)) (d + 1)).2 ++
         (insert_batch_recursive fuel r
          ((u :: us).filter (fun p => !(get_bit_at p.1 d == 0)))
          (d + 1)).2)) := rfl

theorem orElseO_none {β : Type} (o : Option β) : orElseO o none = o := by
  cases o <;> rfl

theorem lookupA_isSome_of_mem {β : Type} :
    ∀ (l : List (Addr × β)) (p : Addr × β), p ∈ l →
      ∃ v, lookupA l p.1 = some v
  | [], p, hp => by simp at hp
  | (k, v) :: rest, p, hp => by
      by_cases hk : k = p.1
      · exact ⟨v, by simp [lookupA, hk]⟩
      · have hmem : p ∈ rest := by
          rcases List.mem_cons.mp hp with h | h
          · exact absurd (by rw [h]) hk
          · exact h
        obtain ⟨w, hw⟩ := lookupA_isSome_of_mem rest p hmem
        exact ⟨w, by simp [lookupA, hk, hw]⟩

/-- The `Bpre` invariant for the batch extended with a non-overridden leaf
entry, as formed in the `Leaf` case of `insert_batch_recursive`. -/
theorem Bpre_append_leaf (updates : List (Addr × Account)) (d : Nat)
    (a : Addr) (acct : Account) (hB : Bpre updates d) (hva : a.valid)
    (hno : ∀ p ∈ updates, p.1 ≠ a)
    (hag : ∀ u ∈ updates, agreesBelow u.1 a d) :
    Bpre (updates ++ [(a, acct)]) d := by
  obtain ⟨hv, hpw, hagree⟩ := hB
  refine ⟨?_, ?_, ?_⟩
  · intro p hp
    rcases List.mem_append.mp hp with h | h
    · exact hv p h
    · simp at h
      rw [h]
      exact hva
  · rw [List.pairwise_append]
    refine ⟨hpw, by simp, ?_⟩
    intro p hp q hq
    simp at hq
    rw [hq]
    exact hno p hp
  · intro p hp q hq i hi
    rcases List.mem_append.mp hp with h₁ | h₁ <;>
      rcases List.mem_append.mp hq with h₂ | h₂
    · exact hagree p h₁ q h₂ i hi
    · simp at h₂
      rw [h₂]
      exact hag p h₁ i hi
    · simp at h₁
      rw [h₁]
      exact (hag q h₂ i hi).symm
    · simp at h₁ h₂
      rw [h₁, h₂]

/-- Reading through a batch insert at depth `d`: updated addresses see
their new account, all others see what the old subtree stored. -/
theorem insert_rec_get (fuel : Nat) :
    ∀ (t : Trie) (updates : List (Addr × Account)) (d : Nat),
      Bpre updates d → wfT t d →
      (∀ u ∈ updates, ∀ p ∈ leaves t, agreesBelow u.1 p.1 d) →
      160 - d ≤ fuel → ∀ x : Addr,
      trieGet (insert_batch_recursive fuel t updates d).1 x d =
        orElseO (lookupA updates x) (trieGet t x d)
  | t, [], d, _, _, _, _, x => by
      rw [ins_nil]
      show trieGet t x d = orElseO none (trieGet t x d)
      rfl
  | .empty, u :: us, d, hB, _, _, hf, x => by
      rw [ins_empty_node, build_subtree_get fuel (u :: us) d hB hf x]
      show _ = orElseO (lookupA (u :: us) x) none
      rw [orElseO_none]
  | .leaf a acct, u :: us, d, hB, hwf, hcross, hf, x => by
      rw [ins_leaf]
      by_cases hany : (u :: us).any (fun p => p.1 == a)
      · rw [if_pos hany, build_subtree_get fuel (u :: us) d hB hf x]
        by_cases hx : a = x
        · subst hx
          simp only [List.any_eq_true, beq_iff_eq] at hany
          obtain ⟨p, hp, hpa⟩ := hany
          obtain ⟨v, hv⟩ := lookupA_isSome_of_mem (u :: us) p hp
          rw [hpa] at hv
          rw [hv]
          rfl
        · show _ = orElseO _ (if a = x then some acct else none)
          rw [if_neg hx, orElseO_none]
      · rw [if_neg hany]
        simp only [List.any_eq_true, beq_iff_eq, not_exists, not_and] at hany
        have hno : ∀ p ∈ u :: us, p.1 ≠ a := hany
        have hBa : Bpre ((u :: us) ++ [(a, acct)]) d :=
          Bpre_append_leaf (u :: us) d a acct hB hwf hno
            (fun w hw => hcross w hw (a, acct) (by simp [leaves]))
        rw [build_subtree_get fuel _ d hBa hf x, lookupA_append]
        show _ = orElseO _ (if a = x then some acct else none)
        have : lookupA [(a, acct)] x = if a = x then some acct else none := by
          simp [lookupA]
        rw [this]
  | .branch l r, u :: us, d, hB, hwf, hcross, hf, x => by
      rw [ins_branch]
      obtain ⟨hbl, hbr, hwl, hwr⟩ := hwf
      by_cases hx : get_bit_at x d = 0
      · show trieGet (.branch _ _) x d = _
        rw [trieGet, if_pos hx]
        have ih := insert_rec_get fuel l
          ((u :: us).filter (fun p => get_bit_at p.1 d == 0)) (d + 1)
          (Bpre_filter _ d _ hB (same_bit_left d)) hwl
          (fun w hw p hp i hi => by
            rcases Nat.lt_or_ge i d with h | h
            · exact hcross w (List.mem_of_mem_filter hw) p
                (by simp [leaves, hp]) i h
            · have hieq : i = d := by omega
              subst hieq
              have hw0 : get_bit_at w.1 i = 0 := by
                have := List.of_mem_filter hw
                simpa using this
              rw [hw0, hbl p hp])
          (by omega) x
        rw [ih, lookupA_filter x _ (u :: us) (fun w _ hwx => by simp [hwx, hx])]
        show _ = orElseO _ (trieGet (.branch l r) x d)
        rw [trieGet, if_pos hx]
      · show trieGet (.branch _ _) x d = _
        rw [trieGet, if_neg hx]
        have ih := insert_rec_get fuel r
          ((u :: us).filter (fun p => !(get_bit_at p.1 d == 0))) (d + 1)
          (Bpre_filter _ d _ hB (same_bit_right d)) hwr
          (fun w hw p hp i hi => by
            rcases Nat.lt_or_ge i d with h | h
            · exact hcross w (List.mem_of_mem_filter hw) p
                (by simp [leaves, hp]) i h
            · have hieq : i = d := by omega
              subst hieq
              have hw1 : get_bit_at w.1 i = 1 := by
                have h1 := List.of_mem_filter hw
                have h2 := get_bit_at_le_one w.1 i
                simp at h1
                omega
              rw [hw1, hbr p hp])
          (by omega) x
        rw [ih, lookupA_filter x _ (u :: us) (fun w _ hwx => by simp [hwx, hx])]
        show _ = orElseO _ (trieGet (.branch l r) x d)
        rw [trieGet, if_neg hx]

/-- A from-scratch rebuild is well-formed at its depth and stores exactly
entries of the batch at its leaves. -/
theorem build_wf_leaves :
    ∀ (fuel : Nat) (items : List (Addr × Account)) (d : Nat),
      Bpre items d → 160 - d ≤ fuel →
      wfT (build_subtree_from_scratch fuel items d).1 d ∧
      ∀ p ∈ leaves (build_subtree_from_scratch fuel items d).1, p ∈ items
  | fuel, [], d, _, _ => by
      rw [build_nil]
      exact ⟨trivial, by simp [leaves]⟩
  | fuel, [(a, acct)], d, hB, _ => by
      rw [build_single]
      refine ⟨hB.1 (a, acct) (by simp), ?_⟩
      simp [leaves]
  | 0, p :: q :: rest, d, hB, hf => by
      have := Bpre_depth_lt p q rest d hB
      omega
  | fuel + 1, p :: q :: rest, d, hB, hf => by
      rw [build_cons2]
      have hd := Bpre_depth_lt p q rest d hB
      have ihL := build_wf_leaves fuel
        ((p :: q :: rest).filter (fun u => get_bit_at u.1 d == 0)) (d + 1)
        (Bpre_filter _ d _ hB (same_bit_left d)) (by omega)
      have ihR := build_wf_leaves fuel
        ((p :: q :: rest).filter (fun u => !(get_bit_at u.1 d == 0))) (d + 1)
        (Bpre_filter _ d _ hB (same_bit_right d)) (by omega)
      refine ⟨⟨?_, ?_, ihL.1, ihR.1⟩, ?_⟩
      · intro w hw
        have hmem := ihL.2 w hw
        have := List.of_mem_filter hmem
        simpa using this
      · intro w hw
        have hmem := ihR.2 w hw
        have h1 := List.of_mem_filter hmem
        have h2 := get_bit_at_le_one w.1 d
        simp at h1
        omega
      · intro w hw
        show w ∈ p :: q :: rest
        rcases List.mem_append.mp hw with h | h
        · exact List.mem_of_mem_filter (ihL.2 w h)
        · exact List.mem_of_mem_filter (ihR.2 w h)

/-- A batch insert preserves well-formedness; its leaves come from the
batch or from the old subtree. -/
theorem insert_rec_wf (fuel : Nat) :
    ∀ (t : Trie) (updates : List (Addr × Account)) (d : Nat),
      Bpre updates d → wfT t d →
      (∀ u ∈ updates, ∀ p ∈ leaves t, agreesBelow u.1 p.1 d) →
      160 - d ≤ fuel →
      wfT (insert_batch_recursive fuel t updates d).1 d ∧
      ∀ p ∈ leaves (insert_batch_recursive fuel t updates d).1,
        p ∈ updates ∨ p ∈ leaves t
  | t, [], d, _, hwf, _, _ => by
      rw [ins_nil]
      exact ⟨hwf, fun p hp => Or.inr hp⟩
  | .empty, u :: us, d, hB, _, _, hf => by
      rw [ins_empty_node]
      have h := build_wf_leaves fuel (u :: us) d hB hf
      exact ⟨h.1, fun p hp => Or.inl (h.2 p hp)⟩
  | .leaf a acct, u :: us, d, hB, hwf, hcross, hf => by
      rw [ins_leaf]
      by_cases hany : (u :: us).any (fun p => p.1 == a)
      · rw [if_pos hany]
        have h := build_wf_leaves fuel (u :: us) d hB hf
        exact ⟨h.1, fun p hp => Or.inl (h.2 p hp)⟩
      · rw [if_neg hany]
        simp only [List.any_eq_true, beq_iff_eq, not_exists, not_and] at hany
        have hBa : Bpre ((u :: us) ++ [(a, acct)]) d :=
          Bpre_append_leaf (u :: us) d a acct hB hwf hany
            (fun w hw => hcross w hw (a, acct) (by simp [leaves]))
        have h := build_wf_leaves fuel ((u :: us) ++ [(a, acct)]) d hBa hf
        refine ⟨h.1, fun p hp => ?_⟩
        rcases List.mem_append.mp (h.2 p hp) with hm | hm
        · exact Or.inl hm
        · right
          simp at hm
          simp [leaves, hm]
  | .branch l r, u :: us, d, hB, hwf, hcross, hf => by
      rw [ins_branch]
      obtain ⟨hbl, hbr, hwl, hwr⟩ := hwf
      have hcl : ∀ w ∈ (u :: us).filter (fun p => get_bit_at p.1 d == 0),
          ∀ p ∈ leaves l, agreesBelow w.1 p.1 (d + 1) := by
        intro w hw p hp i hi
        rcases Nat.lt_or_ge i d with h | h
        · exact hcross w (List.mem_of_mem_filter hw) p
            (by simp [leaves, hp]) i h
        · have hieq : i = d := by omega
          subst hieq
          have hw0 : get_bit_at w.1 i = 0 := by
            have := List.of_mem_filter hw
            simpa using this
          rw [hw0, hbl p hp]
      have hcr : ∀ w ∈ (u :: us).filter (fun p => !(get_bit_at p.1 d == 0)),
          ∀ p ∈ leaves r, agreesBelow w.1 p.1 (d + 1) := by
        intro w hw p hp i hi
        rcases Nat.lt_or_ge i d with h | h
        · exact hcross w (List.mem_of_mem_filter hw) p
            (by simp [leaves, hp]) i h
        · have hieq : i = d := by omega
          subst hieq
          have hw1 : get_bit_at w.1 i = 1 := by
            have h1 := List.of_mem_filter hw
            have h2 := get_bit_at_le_one w.1 i
            simp at h1
            omega
          rw [hw1, hbr p hp]
      have ihL := insert_rec_wf fuel l
        ((u :: us).filter (fun p => get_bit_at p.1 d == 0)) (d + 1)
        (Bpre_filter _ d _ hB (same_bit_left d)) hwl hcl (by omega)
      have ihR := insert_rec_wf fuel r
        ((u :: us).filter (fun p => !(get_bit_at p.1 d == 0))) (d + 1)
        (Bpre_filter _ d _ hB (same_bit_right d)) hwr hcr (by omega)
      refine ⟨⟨?_, ?_, ihL.1, ihR.1⟩, ?_⟩
      · intro w hw
        rcases ihL.2 w hw with h | h
        · have := List.of_mem_filter h
          simpa using this
        · exact hbl w h
      · intro w hw
        rcases ihR.2 w hw with h | h
        · have h1 := List.of_mem_filter h
          have h2 := get_bit_at_le_one w.1 d
          simp at h1
          omega
        · exact hbr w h
      · intro w hw
        show w ∈ u :: us ∨ w ∈ leaves l ++ leaves r
        rcases List.mem_append.mp hw with h | h
        · rcases ihL.2 w h with hm | hm
          · exact Or.inl (List.mem_of_mem_filter hm)
          · exact Or.inr (List.mem_append.mpr (Or.inl hm))
        · rcases ihR.2 w h with hm | hm
          · exact Or.inl (List.mem_of_mem_filter hm)
          · exact Or.inr (List.mem_append.mpr (Or.inr hm))

/-- Fuel-independence of the full batch-insert recursion. -/
theorem insert_rec_fuel_congr (f₁ f₂ : Nat) :
    ∀ (t : Trie) (updates : List (Addr × Account)) (d : Nat),
      Bpre updates d → wfT t d →
      (∀ u ∈ updates, ∀ p ∈ leaves t, agreesBelow u.1 p.1 d) →
      160 - d ≤ f₁ → 160 - d ≤ f₂ →
      insert_batch_recursive f₁ t updates d =
        insert_batch_recursive f₂ t updates d
  | t, [], d, _, _, _, _, _ => by rw [ins_nil, ins_nil]
  | .empty, u :: us, d, hB, _, _, h₁, h₂ => by
      rw [ins_empty_node, ins_empty_node]
      exact build_subtree_fuel_congr f₁ f₂ (u :: us) d hB h₁ h₂
  | .leaf a acct, u :: us, d, hB, hwf, hcross, h₁, h₂ => by
      rw [ins_leaf, ins_leaf]
      by_cases hany : (u :: us).any (fun p => p.1 == a)
      · rw [if_pos hany, if_pos hany]
        exact build_subtree_fuel_congr f₁ f₂ (u :: us) d hB h₁ h₂
      · rw [if_neg hany, if_neg hany]
        simp only [List.any_eq_true, beq_iff_eq, not_exists, not_and] at hany
        exact build_subtree_fuel_congr f₁ f₂ ((u :: us) ++ [(a, acct)]) d
          (Bpre_append_leaf (u :: us) d a acct hB hwf hany
            (fun w hw => hcross w hw (a, acct) (by simp [leaves]))) h₁ h₂
  | .branch l r, u :: us, d, hB, hwf, hcross, h₁, h₂ => by
      rw [ins_branch, ins_branch]
      obtain ⟨hbl, hbr, hwl, hwr⟩ := hwf
      have hcl : ∀ w ∈ (u :: us).filter (fun p => get_bit_at p.1 d == 0),
          ∀ p ∈ leaves l, agreesBelow w.1 p.1 (d + 1) := by
        intro w hw p hp i hi
        rcases Nat.lt_or_ge i d with h | h
        · exact hcross w (List.mem_of_mem_filter hw) p
            (by simp [leaves, hp]) i h
        · have hieq : i = d := by omega
          subst hieq
          have hw0 : get_bit_at w.1 i = 0 := by
            have := List.of_mem_filter hw
            simpa using this
          rw [hw0, hbl p hp]
      have hcr : ∀ w ∈ (u :: us).filter (fun p => !(get_bit_at p.1 d == 0)),
          ∀ p ∈ leaves r, agreesBelow w.1 p.1 (d + 1) := by
        intro w hw p hp i hi
        rcases Nat.lt_or_ge i d with h | h
        · exact hcross w (List.mem_of_mem_filter hw) p
            (by simp [leaves, hp]) i h
        · have hieq : i = d := by omega
          subst hieq
          have hw1 : get_bit_at w.1 i = 1 := by
            have ha := List.of_mem_filter hw
            have hb := get_bit_at_le_one w.1 i
            simp at ha
            omega
          rw [hw1, hbr p hp]
      have ihL := insert_rec_fuel_congr f₁ f₂ l
        ((u :: us).filter (fun p => get_bit_at p.1 d == 0)) (d + 1)
        (Bpre_filter _ d _ hB (same_bit_left d)) hwl hcl (by omega) (by omega)
      have ihR := insert_rec_fuel_congr f₁ f₂ r
        ((u :: us).filter (fun p => !(get_bit_at p.1 d == 0))) (d + 1)
        (Bpre_filter _ d _ hB (same_bit_right d)) hwr hcr (by omega) (by omega)
      rw [ihL, ihR]

/-- The trivial depth-0 instance of the batch invariant. -/
theorem Bpre_zero (updates : List (Addr × Account))
    (hv : ∀ p ∈ updates, p.1.valid)
    (hpw : updates.Pairwise (fun p q => p.1 ≠ q.1)) : Bpre updates 0 :=
  ⟨hv, hpw, fun _ _ _ _ i hi => absurd hi (Nat.not_lt_zero i)⟩

/-- C8: trie round-trip.  For a batch of pairwise-distinct valid
addresses applied by `insert_batch` to a well-formed trie, `get` on the
returned root yields the written account for every updated address and
the previous `get` result for every other address; the result is again
well-formed, so the statement composes across any sequence of batches
(persisting `new_nodes` between batches is the identity in this model,
which resolves node hashes to node trees). -/
theorem trie_insert_batch_roundtrip (fuel : Nat) (t : Trie)
    (updates : List (Addr × Account))
    (hv : ∀ p ∈ updates, p.1.valid)
    (hpw : updates.Pairwise (fun p q => p.1 ≠ q.1))
    (hwf : wfT t 0) (hfuel : 160 ≤ fuel) :
    (∀ (x : Addr) (acct : Account), lookupA updates x = some acct →
        trieGet (insert_batch fuel t updates).1 x 0 = some acct) ∧
    (∀ x : Addr, lookupA updates x = none →
        trieGet (insert_batch fuel t updates).1 x 0 = trieGet t x 0) ∧
    wfT (insert_batch fuel t updates).1 0 := by
  cases updates with
  | nil =>
      rw [insert_batch_nil]
      refine ⟨fun x acct hx => by simp [lookupA] at hx, fun x _ => rfl, hwf⟩
  | cons u us =>
      have hB : Bpre (u :: us) 0 := Bpre_zero _ hv hpw
      have hcross : ∀ w ∈ u :: us, ∀ p ∈ leaves t, agreesBelow w.1 p.1 0 :=
        fun _ _ _ _ i hi => absurd hi (Nat.not_lt_zero i)
      have hins : insert_batch fuel t (u :: us) =
          insert_batch_recursive fuel t (u :: us) 0 := by
        simp [insert_batch]
      rw [hins]
      have hget := insert_rec_get fuel t (u :: us) 0 hB hwf hcross (by omega)
      have hwfr := insert_rec_wf fuel t (u :: us) 0 hB hwf hcross (by omega)
      refine ⟨?_, ?_, hwfr.1⟩
      · intro x acct hx
        rw [hget x, hx]
        rfl
      · intro x hx
        rw [hget x, hx]
        rfl

/-- The all-zero 20-byte address, used to instantiate theorems. -/
def addrZ : Addr := ⟨List.replicate 20 0⟩

theorem trie_insert_batch_roundtrip_witness :
    trieGet (insert_batch 160 Trie.empty [(addrZ, ⟨0, 7⟩)]).1 addrZ 0 =
      some ⟨0, 7⟩ :=
  (trie_insert_batch_roundtrip 160 Trie.empty [(addrZ, ⟨0, 7⟩)]
    (by decide) (by decide) trivial (by decide)).1 addrZ ⟨0, 7⟩ (by decide)

/-- C10: `insert_batch` terminates on every update map of pairwise
distinct valid addresses.  In the fuel model: `get_bit_at` is 0 from index
160 on, and both the from-scratch rebuild and the full batch insert are
independent of the fuel once it reaches 160, i.e. the source's recursion
depth is bounded by 160. -/
theorem trie_recursion_depth_bounded (f₁ f₂ : Nat) (t : Trie)
    (updates : List (Addr × Account))
    (hv : ∀ p ∈ updates, p.1.valid)
    (hpw : updates.Pairwise (fun p q => p.1 ≠ q.1))
    (hwf : wfT t 0) (h₁ : 160 ≤ f₁) (h₂ : 160 ≤ f₂) :
    (∀ (a : Addr) (i : Nat), 160 ≤ i → get_bit_at a i = 0) ∧
    build_subtree_from_scratch f₁ updates 0 =
      build_subtree_from_scratch f₂ updates 0 ∧
    insert_batch f₁ t updates = insert_batch f₂ t updates := by
  have hB : Bpre updates 0 := Bpre_zero _ hv hpw
  refine ⟨get_bit_at_of_ge, ?_, ?_⟩
  · exact build_subtree_fuel_congr f₁ f₂ updates 0 hB (by omega) (by omega)
  · cases updates with
    | nil => rw [insert_batch_nil, insert_batch_nil]
    | cons u us =>
        have e₁ : insert_batch f₁ t (u :: us) =
            insert_batch_recursive f₁ t (u :: us) 0 := by
          simp [insert_batch]
        have e₂ : insert_batch f₂ t (u :: us) =
            insert_batch_recursive f₂ t (u :: us) 0 := by
          simp [insert_batch]
        rw [e₁, e₂]
        exact insert_rec_fuel_congr f₁ f₂ t (u :: us) 0 hB hwf
          (fun _ _ _ _ i hi => absurd hi (Nat.not_lt_zero i))
          (by omega) (by omega)

theorem trie_recursion_depth_bounded_witness :
    insert_batch 160 Trie.empty [(addrZ, ⟨0, 7⟩)] =
      insert_batch 200 Trie.empty [(addrZ, ⟨0, 7⟩)] :=
  (trie_recursion_depth_bounded 160 200 Trie.empty [(addrZ, ⟨0, 7⟩)]
    (by decide) (by decide) trivial (by decide) (by decide)).2.2

/-! ### Permutation invariance of `insert_batch`

The source converts the account-update `HashMap` into a `Vec` in whatever
order the map iterates; these lemmas show the computed root is a function
of the update set alone and the `new_nodes` map does not depend on the
iteration order either. -/

theorem perm_any_eq {β : Type} (l₁ l₂ : List β) (f : β → Bool)
    (h : l₁.Perm l₂) : l₁.any f = l₂.any f := by
  have hiff : l₁.any f = true ↔ l₂.any f = true := by
    simp only [List.any_eq_true]
    constructor
    · rintro ⟨x, hx, hfx⟩
      exact ⟨x, h.mem_iff.mp hx, hfx⟩
    · rintro ⟨x, hx, hfx⟩
      exact ⟨x, h.mem_iff.mpr hx, hfx⟩
  cases ha : l₁.any f <;> cases hb : l₂.any f <;> simp_all

theorem perm_isEmpty_eq {β : Type} (l₁ l₂ : List β) (h : l₁.Perm l₂) :
    l₁.isEmpty = l₂.isEmpty := by
  cases l₁ with
  | nil =>
      rw [h.symm.eq_nil]
  | cons a t =>
      cases l₂ with
      | nil =>
          have := h.eq_nil
          simp at this
      | cons b s => rfl

/-- Rebuilding from scratch depends only on the update set: a permutation
of the batch yields the same subtree and the same set of created nodes. -/
theorem build_subtree_perm :
    ∀ (fuel : Nat) (l₁ l₂ : List (Addr × Account)) (d : Nat), l₁.Perm l₂ →
      (build_subtree_from_scratch fuel l₁ d).1 =
        (build_subtree_from_scratch fuel l₂ d).1 ∧
      ∀ n, n ∈ (build_subtree_from_scratch fuel l₁ d).2 ↔
        n ∈ (build_subtree_from_scratch fuel l₂ d).2
  | fuel, [], l₂, d, h => by
      rw [h.symm.eq_nil]
      exact ⟨rfl, fun n => Iff.rfl⟩
  | fuel, [p], l₂, d, h => by
      rw [List.perm_singleton.mp h.symm]
      exact ⟨rfl, fun n => Iff.rfl⟩
  | 0, p :: q :: rest, l₂, d, h => by
      have hlen := h.length_eq
      match l₂ with
      | [] => simp at hlen
      | [x] => simp at hlen
      | x :: y :: rest₂ =>
          exact ⟨rfl, fun n => Iff.rfl⟩
  | fuel + 1, p :: q :: rest, l₂, d, h => by
      have hlen := h.length_eq
      match l₂ with
      | [] => simp at hlen
      | [x] => simp at hlen
      | x :: y :: rest₂ =>
          rw [build_cons2, build_cons2]
          have ihL := build_subtree_perm fuel
            ((p :: q :: rest).filter (fun u => get_bit_at u.1 d == 0))
            ((x :: y :: rest₂).filter (fun u => get_bit_at u.1 d == 0))
            (d + 1) (h.filter _)
          have ihR := build_subtree_perm fuel
            ((p :: q :: rest).filter (fun u => !(get_bit_at u.1 d == 0)))
            ((x :: y :: rest₂).filter (fun u => !(get_bit_at u.1 d == 0)))
            (d + 1) (h.filter _)
          constructor
          · show Trie.branch _ _ = Trie.branch _ _
            rw [ihL.1, ihR.1]
          · intro n
            show n ∈ Trie.branch _ _ :: (_ ++ _) ↔
              n ∈ Trie.branch _ _ :: (_ ++ _)
            rw [ihL.1, ihR.1]
            simp only [List.mem_cons, List.mem_append]
            rw [ihL.2 n, ihR.2 n]

/-- Batch insert depends only on the update set. -/
theorem insert_rec_perm (fuel : Nat) :
    ∀ (t : Trie) (u₁ u₂ : List (Addr × Account)) (d : Nat), u₁.Perm u₂ →
      (insert_batch_recursive fuel t u₁ d).1 =
        (insert_batch_recursive fuel t u₂ d).1 ∧
      ∀ n, n ∈ (insert_batch_recursive fuel t u₁ d).2 ↔
        n ∈ (insert_batch_recursive fuel t u₂ d).2 := by
  intro t
  induction t with
  | empty =>
      intro u₁ u₂ d h
      cases u₁ with
      | nil =>
          rw [h.symm.eq_nil]
          exact ⟨rfl, fun n => Iff.rfl⟩
      | cons p ps =>
          cases u₂ with
          | nil =>
              have := h.eq_nil
              simp at this
          | cons q qs =>
              rw [ins_empty_node, ins_empty_node]
              exact build_subtree_perm fuel (p :: ps) (q :: qs) d h
  | leaf a acct =>
      intro u₁ u₂ d h
      cases u₁ with
      | nil =>
          rw [h.symm.eq_nil]
          exact ⟨rfl, fun n => Iff.rfl⟩
      | cons p ps =>
          cases u₂ with
          | nil =>
              have := h.eq_nil
              simp at this
          | cons q qs =>
              rw [ins_leaf, ins_leaf]
              have hany := perm_any_eq (p :: ps) (q :: qs)
                (fun w => w.1 == a) h
              rw [hany]
              by_cases hb : (q :: qs).any (fun w => w.1 == a)
              · rw [if_pos hb, if_pos hb]
                exact build_subtree_perm fuel (p :: ps) (q :: qs) d h
              · rw [if_neg hb, if_neg hb]
                exact build_subtree_perm fuel _ _ d
                  (h.append_right [(a, acct)])
  | branch l r ihl ihr =>
      intro u₁ u₂ d h
      cases u₁ with
      | nil =>
          rw [h.symm.eq_nil]
          exact ⟨rfl, fun n => Iff.rfl⟩
      | cons p ps =>
          cases u₂ with
          | nil =>
              have := h.eq_nil
              simp at this
          | cons q qs =>
              rw [ins_branch, ins_branch]
              have ihL := ihl ((p :: ps).filter
                  (fun w => get_bit_at w.1 d == 0))
                ((q :: qs).filter (fun w => get_bit_at w.1 d == 0))
                (d + 1) (h.filter _)
              have ihR := ihr ((p :: ps).filter
                  (fun w => !(get_bit_at w.1 d == 0)))
                ((q :: qs).filter (fun w => !(get_bit_at w.1 d == 0)))
                (d + 1) (h.filter _)
              constructor
              · show Trie.branch _ _ = Trie.branch _ _
                rw [ihL.1, ihR.1]
              · intro n
                show n ∈ Trie.branch _ _ :: (_ ++ _) ↔
                  n ∈ Trie.branch _ _ :: (_ ++ _)
                rw [ihL.1, ihR.1]
                simp only [List.mem_cons, List.mem_append]
                rw [ihL.2 n, ihR.2 n]

/-- Permutation invariance at the `insert_batch` entry point. -/
theorem insert_batch_perm (fuel : Nat) (t : Trie)
    (u₁ u₂ : List (Addr × Account)) (h : u₁.Perm u₂) :
    (insert_batch fuel t u₁).1 = (insert_batch fuel t u₂).1 ∧
    ∀ n, n ∈ (insert_batch fuel t u₁).2 ↔ n ∈ (insert_batch fuel t u₂).2 := by
  unfold insert_batch
  rw [perm_isEmpty_eq u₁ u₂ h]
  by_cases he : u₂.isEmpty
  · rw [if_pos he, if_pos he]
    exact ⟨rfl, fun n => Iff.rfl⟩
  · rw [if_neg he, if_neg he]
    exact insert_rec_perm fuel t u₁ u₂ 0 h

/-! ## Transactions and blocks (`src/types/transaction.rs`, `block.rs`) -/

/-- Source `Transaction`, with `u64` fields as naturals below `2^64` and the
opaque data blob as a byte list. -/
structure Transaction where
  nonce : Nat
  gas_price : Nat
  gas_limit : Nat
  toA : Addr
  value : Nat
  data : List Nat
deriving DecidableEq

/-- Source `Transaction::new(nonce, gas_price, gas_limit, to, value, data)`. -/
def Transaction.new (nonce gas_price gas_limit : Nat) (toA : Addr)
    (value : Nat) (data : List Nat) : Transaction :=
  ⟨nonce, gas_price, gas_limit, toA, value, data⟩

/-- Source `SignedTransaction`. -/
structure SignedTransaction where
  transaction : Transaction
  signature : List Nat
  public_key : List Nat
deriving DecidableEq

/-- Source `Block`: the header fields plus the transaction body.  Hashes are
abstract naturals. -/
structure Block where
  parent : Nat
  nonce : Nat
  difficulty : Nat
  timestamp : Nat
  merkle_root : Nat
  state_root : Nat
  coinbase : Transaction
  data : List SignedTransaction
deriving DecidableEq

/-- Source `BLOCK_REWARD` (`src/miner/mod.rs`). -/
def BLOCK_REWARD : Nat := 50

/-- The cryptographic primitives `execute_block` calls, as abstract
functions: SHA-256 of the block header, SHA-256 of a signed transaction,
the Merkle pair hash, Ed25519 signature verification, address derivation
from the public key, and the state-trie node hash (content-addressing
makes it injective on the node trees the model works with). -/
structure Crypto where
  blockHash : Block → Nat
  txHash : SignedTransaction → Nat
  hp : Nat → Nat → Nat
  sigVerify : SignedTransaction → Bool
  senderAddr : SignedTransaction → Addr
  trieHash : Trie → Nat

/-- The store as `execute_block` sees it: the `blocks` keyspace, and the
state trie reachable from a given state root (a root whose nodes are
absent resolves to `Empty`, matching the source's lazy-load fallbacks). -/
structure Store where
  blocks : Nat → Option Block
  stateOf : Nat → Trie

/-- The validation errors of `execute_block`, tagged by the check that
produced them (the source formats them as strings; the constructor
identifies which `return Err(...)` fired, with the transaction index
where the source reports a per-transaction failure). -/
inductive ExecError where
  | parentNotFound
  | powFail
  | diffMismatch
  | badSig (i : Nat)
  | coinbaseMismatch
  | merkleMismatch
  | badNonce (i : Nat)
  | insufficientBalance (i : Nat)
  | stateRootMismatch
deriving DecidableEq

/-- The signature-and-fee loop of `execute_block`: verify each signature
in order, accumulating `total_fee += gas_price * gas_limit` (wrapping). -/
def sigCheckFee (C : Crypto) :
    List SignedTransaction → Nat → Nat → Except ExecError Nat
  | [], _, acc => .ok acc
  | tx :: rest, i, acc =>
      if C.sigVerify tx then
        sigCheckFee C rest (i + 1)
          (wadd acc (wmul tx.transaction.gas_price tx.transaction.gas_limit))
      else .error (.badSig i)

/-- The account as the execution loop sees it: the running update map
first, else the parent state, else the default account. -/
def effAcct (state : Trie) (acc : List (Addr × Account)) (a : Addr) :
    Account :=
  match lookupA acc a with
  | some v => v
  | none => (trieGet state a 0).getD Account.dflt

/-- The per-transaction execution loop of `execute_block`: check the
nonce, check the balance against `value + gas_price * gas_limit`, then
debit the sender (nonce + 1) and credit the receiver, accumulating the
updates keyed by address. -/
def applyTxs (C : Crypto) (state : Trie) :
    List SignedTransaction → Nat → List (Addr × Account) →
      Except ExecError (List (Addr × Account))
  | [], _, acc => .ok acc
  | tx :: rest, i, acc =>
      let sender := C.senderAddr tx
      let total_cost := wadd tx.transaction.value
        (wmul tx.transaction.gas_price tx.transaction.gas_limit)
      let sender_acc := effAcct state acc sender
      if tx.transaction.nonce ≠ sender_acc.nonce then .error (.badNonce i)
      else if sender_acc.balance < total_cost then
        .error (.insufficientBalance i)
      else
        let acc₁ := upsertA acc sender
          ⟨wadd sender_acc.nonce 1, sender_acc.balance - total_cost⟩
        let receiver := tx.transaction.toA
        let receiver_acc := effAcct state acc₁ receiver
        let acc₂ := upsertA acc₁ receiver
          ⟨receiver_acc.nonce, wadd receiver_acc.balance tx.transaction.value⟩
        applyTxs C state rest (i + 1) acc₂

/-- Crediting `coinbase.value` to `coinbase.to` after all transactions. -/
def applyCoinbase (state : Trie) (b : Block) (acc : List (Addr × Account)) :
    List (Addr × Account) :=
  let miner := b.coinbase.toA
  let miner_acc := effAcct state acc miner
  upsertA acc miner ⟨miner_acc.nonce, wadd miner_acc.balance b.coinbase.value⟩

/-- The fuel handed to the trie recursion (claim C10: depth 160 bounds the
source's unbounded recursion on valid update maps). -/
def trieFuel : Nat := 160

/-- Source `Blockchain::execute_block`.  `iter` is the iteration order the
source's `HashMap<Address, Account>` produces when `insert_batch` turns it
into a vector; it permutes the canonical (first-touch) order. -/
def execute_block (C : Crypto)
    (iter : List (Addr × Account) → List (Addr × Account)) (store : Store)
    (b : Block) : Except ExecError (Nat × List Trie) :=
  match store.blocks b.parent with
  | none => .error .parentNotFound
  | some parent_block =>
      if b.difficulty < C.blockHash b then .error .powFail
      else if b.difficulty ≠ parent_block.difficulty then .error .diffMismatch
      else
        match sigCheckFee C b.data 0 0 with
        | .error e => .error e
        | .ok total_fee =>
            if b.coinbase.value ≠ wadd BLOCK_REWARD total_fee then
              .error .coinbaseMismatch
            else if merkleRoot C.hp (b.data.map C.txHash) ≠ b.merkle_root then
              .error .merkleMismatch
            else
              let state := store.stateOf parent_block.state_root
              match applyTxs C state b.data 0 [] with
              | .error e => .error e
              | .ok acc =>
                  let updates := applyCoinbase state b acc
                  let res := insert_batch trieFuel state (iter updates)
                  if C.trieHash res.1 ≠ b.state_root then
                    .error .stateRootMismatch
                  else .ok (C.blockHash b, res.2)

/-- The sum `Σ tx.gas_price * tx.gas_limit` with wrapping `u64` arithmetic, the
fee sum `execute_block` accumulates when all signatures verify. -/
def totalFee (txs : List SignedTransaction) : Nat :=
  txs.foldl
    (fun acc tx =>
      wadd acc (wmul tx.transaction.gas_price tx.transaction.gas_limit)) 0

theorem totalFee_aux_lt (txs : List SignedTransaction) :
    ∀ acc : Nat, acc < U64MOD →
      txs.foldl (fun a tx =>
        wadd a (wmul tx.transaction.gas_price tx.transaction.gas_limit)) acc <
        U64MOD := by
  induction txs with
  | nil =>
      intro acc hacc
      simpa using hacc
  | cons tx rest ih =>
      intro acc hacc
      simp only [List.foldl_cons]
      exact ih _ (Nat.mod_lt _ (by unfold U64MOD; omega))

/-- C2: `execute_block` is total.  On every input block — adversarial
`u64` field values included — it returns `Ok` or `Err`; the wrapped fee
accumulator and every wrapped `total_cost = value + gas_price * gas_limit`
stay below `2^64`, so (with the wrapping arithmetic of a release build)
the accumulations never abort execution. -/
theorem execute_block_total (C : Crypto)
    (iter : List (Addr × Account) → List (Addr × Account)) (store : Store)
    (b : Block) :
    ((∃ v, execute_block C iter store b = .ok v) ∨
      (∃ e, execute_block C iter store b = .error e)) ∧
    totalFee b.data < U64MOD ∧
    ∀ tx ∈ b.data,
      wadd tx.transaction.value
        (wmul tx.transaction.gas_price tx.transaction.gas_limit) < U64MOD := by
  refine ⟨?_, ?_, ?_⟩
  · match h : execute_block C iter store b with
    | .ok v => exact Or.inl ⟨v, rfl⟩
    | .error e => exact Or.inr ⟨e, rfl⟩
  · exact totalFee_aux_lt b.data 0 (by unfold U64MOD; omega)
  · intro tx _
    exact Nat.mod_lt _ (by unfold U64MOD; omega)

/-- C6: `execute_block` is deterministic.  For any two iteration orders of
the internal account-update hash map (any permutations of the canonical
update list), the computed state root is the same, success is the same,
and on success the returned block hash is the same and the `new_nodes`
sets coincide. -/
theorem execute_block_deterministic (C : Crypto)
    (iter₁ iter₂ : List (Addr × Account) → List (Addr × Account))
    (store : Store) (b : Block)
    (h₁ : ∀ l, (iter₁ l).Perm l) (h₂ : ∀ l, (iter₂ l).Perm l) :
    (∀ (st : Trie) (l : List (Addr × Account)),
      (insert_batch trieFuel st (iter₁ l)).1 =
        (insert_batch trieFuel st (iter₂ l)).1) ∧
    (execute_block C iter₁ store b).isOk =
      (execute_block C iter₂ store b).isOk ∧
    ∀ bh₁ ns₁ bh₂ ns₂, execute_block C iter₁ store b = .ok (bh₁, ns₁) →
      execute_block C iter₂ store b = .ok (bh₂, ns₂) →
      bh₁ = bh₂ ∧ ∀ n, n ∈ ns₁ ↔ n ∈ ns₂ := by
  have hperm : ∀ (st : Trie) (l : List (Addr × Account)),
      (insert_batch trieFuel st (iter₁ l)).1 =
        (insert_batch trieFuel st (iter₂ l)).1 ∧
      ∀ n, n ∈ (insert_batch trieFuel st (iter₁ l)).2 ↔
        n ∈ (insert_batch trieFuel st (iter₂ l)).2 :=
    fun st l =>
      insert_batch_perm trieFuel st (iter₁ l) (iter₂ l)
        ((h₁ l).trans (h₂ l).symm)
  have main : execute_block C iter₁ store b = execute_block C iter₂ store b ∨
      ∃ r₁ r₂, execute_block C iter₁ store b = .ok r₁ ∧
        execute_block C iter₂ store b = .ok r₂ ∧ r₁.1 = r₂.1 ∧
        ∀ n, n ∈ r₁.2 ↔ n ∈ r₂.2 := by
    unfold execute_block
    cases hpb : store.blocks b.parent with
    | none => exact Or.inl rfl
    | some parent =>
        simp only
        by_cases hpow : b.difficulty < C.blockHash b
        · rw [if_pos hpow, if_pos hpow]
          exact Or.inl rfl
        · rw [if_neg hpow, if_neg hpow]
          by_cases hdiff : b.difficulty ≠ parent.difficulty
          · rw [if_pos hdiff, if_pos hdiff]
            exact Or.inl rfl
          · rw [if_neg hdiff, if_neg hdiff]
            cases hsf : sigCheckFee C b.data 0 0 with
            | error e => exact Or.inl rfl
            | ok total_fee =>
                simp only
                by_cases hcb : b.coinbase.value ≠ wadd BLOCK_REWARD total_fee
                · rw [if_pos hcb, if_pos hcb]
                  exact Or.inl rfl
                · rw [if_neg hcb, if_neg hcb]
                  by_cases hmr :
                      merkleRoot C.hp (b.data.map C.txHash) ≠ b.merkle_root
                  · rw [if_pos hmr, if_pos hmr]
                    exact Or.inl rfl
                  · rw [if_neg hmr, if_neg hmr]
                    cases hap : applyTxs C (store.stateOf parent.state_root)
                        b.data 0 [] with
                    | error e => exact Or.inl rfl
                    | ok acc =>
                        simp only
                        have hr := hperm (store.stateOf parent.state_root)
                          (applyCoinbase (store.stateOf parent.state_root)
                            b acc)
                        rw [hr.1]
                        by_cases hsr : C.trieHash
                            (insert_batch trieFuel
                              (store.stateOf parent.state_root)
                              (iter₂ (applyCoinbase
                                (store.stateOf parent.state_root) b acc))).1 ≠
                            b.state_root
                        · rw [if_pos hsr, if_pos hsr]
                          exact Or.inl rfl
                        · rw [if_neg hsr, if_neg hsr]
                          refine Or.inr ⟨_, _, rfl, rfl, rfl, ?_⟩
                          exact hr.2
  refine ⟨fun st l => (hperm st l).1, ?_, ?_⟩
  · rcases main with he | ⟨r₁, r₂, e₁, e₂, _, _⟩
    · rw [he]
    · rw [e₁, e₂]
      rfl
  · intro bh₁ ns₁ bh₂ ns₂ hx₁ hx₂
    rcases main with he | ⟨r₁, r₂, e₁, e₂, hfst, hsnd⟩
    · rw [he, hx₂] at hx₁
      injection hx₁ with hx₁
      rw [Prod.mk.injEq] at hx₁
      exact ⟨hx₁.1.symm, by rw [hx₁.2]; exact fun n => Iff.rfl⟩
    · rw [hx₁] at e₁
      rw [hx₂] at e₂
      injection e₁ with e₁
      injection e₂ with e₂
      rw [← e₁, ← e₂] at hfst hsnd
      exact ⟨hfst, hsnd⟩

/-! ### The fail-fast order of `execute_block`'s checks (C4) -/

/-- A default signed transaction (used only as the `getD` default when
indexing a list at a position known to be in range). -/
def txDflt : SignedTransaction := ⟨⟨0, 0, 0, ⟨[]⟩, 0, []⟩, [], []⟩

/-- Checks 1-3: the parent is stored, the PoW bound holds, and the
difficulty matches the parent's. -/
def chkParentPowDiff (C : Crypto) (store : Store) (b : Block) (p : Block) :
    Prop :=
  store.blocks b.parent = some p ∧ C.blockHash b ≤ b.difficulty ∧
    b.difficulty = p.difficulty

/-- Check 4: every transaction signature verifies. -/
def allSigsOk (C : Crypto) (txs : List SignedTransaction) : Prop :=
  ∀ tx ∈ txs, C.sigVerify tx = true

theorem sigCheckFee_error (C : Crypto) :
    ∀ (txs : List SignedTransaction) (i acc : Nat) (e : ExecError),
      sigCheckFee C txs i acc = .error e →
      ∃ j, j < txs.length ∧ e = .badSig (i + j) ∧
        (∀ k, k < j → C.sigVerify (txs.getD k txDflt) = true) ∧
        C.sigVerify (txs.getD j txDflt) = false
  | [], i, acc, e, h => by simp [sigCheckFee] at h
  | tx :: rest, i, acc, e, h => by
      rw [sigCheckFee] at h
      by_cases hs : C.sigVerify tx
      · rw [if_pos hs] at h
        obtain ⟨j, hj, he, hpre, hj0⟩ := sigCheckFee_error C rest (i + 1) _ e h
        refine ⟨j + 1, by simpa using Nat.succ_lt_succ hj, ?_, ?_, by simpa using hj0⟩
        · rw [he]
          have : i + 1 + j = i + (j + 1) := by omega
          rw [this]
        · intro k hk
          cases k with
          | zero => simpa using hs
          | succ k => simpa using hpre k (by omega)
      · rw [if_neg hs] at h
        injection h with h
        refine ⟨0, by simp, by rw [← h, Nat.add_zero],
          fun k hk => absurd hk (by omega), ?_⟩
        simpa using Bool.not_eq_true _ |>.mp hs

theorem sigCheckFee_ok (C : Crypto) :
    ∀ (txs : List SignedTransaction) (i acc v : Nat),
      sigCheckFee C txs i acc = .ok v →
      allSigsOk C txs ∧
        v = txs.foldl (fun a tx =>
          wadd a (wmul tx.transaction.gas_price tx.transaction.gas_limit)) acc
  | [], i, acc, v, h => by
      rw [sigCheckFee] at h
      injection h with h
      exact ⟨fun tx htx => by simp at htx, by rw [← h]; rfl⟩
  | tx :: rest, i, acc, v, h => by
      rw [sigCheckFee] at h
      by_cases hs : C.sigVerify tx
      · rw [if_pos hs] at h
        obtain ⟨hall, hv⟩ := sigCheckFee_ok C rest (i + 1) _ v h
        refine ⟨?_, by simpa using hv⟩
        intro w hw
        rcases List.mem_cons.mp hw with h | h
        · rw [h]; exact hs
        · exact hall w h
      · rw [if_neg hs] at h
        exact absurd h (by simp)

theorem applyTxs_error (C : Crypto) (state : Trie) :
    ∀ (txs : List SignedTransaction) (i : Nat)
      (acc : List (Addr × Account)) (e : ExecError),
      applyTxs C state txs i acc = .error e →
      ∃ j acc', j < txs.length ∧
        applyTxs C state (txs.take j) i acc = .ok acc' ∧
        (let tx := txs.getD j txDflt
         let sender := C.senderAddr tx
         let cost := wadd tx.transaction.value
           (wmul tx.transaction.gas_price tx.transaction.gas_limit)
         (e = .badNonce (i + j) ∧
            tx.transaction.nonce ≠ (effAcct state acc' sender).nonce) ∨
         (e = .insufficientBalance (i + j) ∧
            tx.transaction.nonce = (effAcct state acc' sender).nonce ∧
            (effAcct state acc' sender).balance < cost))
  | [], i, acc, e, h => by simp [applyTxs] at h
  | tx :: rest, i, acc, e, h => by
      rw [applyTxs] at h
      by_cases hn : tx.transaction.nonce ≠ (effAcct state acc
          (C.senderAddr tx)).nonce
      · rw [if_pos hn] at h
        injection h with h
        exact ⟨0, acc, by simp, rfl,
          Or.inl ⟨by rw [← h, Nat.add_zero], by simpa using hn⟩⟩
      · rw [if_neg hn] at h
        have hneq : tx.transaction.nonce =
            (effAcct state acc (C.senderAddr tx)).nonce := by
          by_contra hc
          exact hn hc
        by_cases hb : (effAcct state acc (C.senderAddr tx)).balance <
            wadd tx.transaction.value
              (wmul tx.transaction.gas_price tx.transaction.gas_limit)
        · rw [if_pos hb] at h
          injection h with h
          exact ⟨0, acc, by simp, rfl,
            Or.inr ⟨by rw [← h, Nat.add_zero], by simpa using hneq,
              by simpa using hb⟩⟩
        · rw [if_neg hb] at h
          obtain ⟨j, acc', hj, hpre, hcase⟩ :=
            applyTxs_error C state rest (i + 1) _ e h
          refine ⟨j + 1, acc', by simpa using Nat.succ_lt_succ hj, ?_, ?_⟩
          · rw [List.take_succ_cons, applyTxs, if_neg hn, if_neg hb]
            exact hpre
          · have hsh : i + 1 + j = i + (j + 1) := by omega
            simpa [hsh] using hcase

/-- C4: every error of `execute_block` identifies the first violated check
in the fixed source order — parent lookup, PoW bound, difficulty match,
first bad signature, coinbase value, Merkle root, then per-transaction
nonce before balance in transaction order, then the final state root.
Each error case asserts that all earlier checks hold and the named check
fails, so an error of a later check is never returned while an earlier
check is violated. -/
theorem execute_block_error_order (C : Crypto)
    (iter : List (Addr × Account) → List (Addr × Account))
    (store : Store) (b : Block) (e : ExecError)
    (h : execute_block C iter store b = .error e) :
    match e with
    | .parentNotFound => store.blocks b.parent = none
    | .powFail => (∃ p, store.blocks b.parent = some p) ∧
        b.difficulty < C.blockHash b
    | .diffMismatch => ∃ p, store.blocks b.parent = some p ∧
        C.blockHash b ≤ b.difficulty ∧ b.difficulty ≠ p.difficulty
    | .badSig i => (∃ p, chkParentPowDiff C store b p) ∧
        i < b.data.length ∧
        (∀ k, k < i → C.sigVerify (b.data.getD k txDflt) = true) ∧
        C.sigVerify (b.data.getD i txDflt) = false
    | .coinbaseMismatch => (∃ p, chkParentPowDiff C store b p) ∧
        allSigsOk C b.data ∧
        b.coinbase.value ≠ wadd BLOCK_REWARD (totalFee b.data)
    | .merkleMismatch => (∃ p, chkParentPowDiff C store b p) ∧
        allSigsOk C b.data ∧
        b.coinbase.value = wadd BLOCK_REWARD (totalFee b.data) ∧
        merkleRoot C.hp (b.data.map C.txHash) ≠ b.merkle_root
    | .badNonce i => ∃ p, chkParentPowDiff C store b p ∧
        allSigsOk C b.data ∧
        b.coinbase.value = wadd BLOCK_REWARD (totalFee b.data) ∧
        merkleRoot C.hp (b.data.map C.txHash) = b.merkle_root ∧
        i < b.data.length ∧
        ∃ acc, applyTxs C (store.stateOf p.state_root)
            (b.data.take i) 0 [] = .ok acc ∧
          (b.data.getD i txDflt).transaction.nonce ≠
            (effAcct (store.stateOf p.state_root) acc
              (C.senderAddr (b.data.getD i txDflt))).nonce
    | .insufficientBalance i => ∃ p, chkParentPowDiff C store b p ∧
        allSigsOk C b.data ∧
        b.coinbase.value = wadd BLOCK_REWARD (totalFee b.data) ∧
        merkleRoot C.hp (b.data.map C.txHash) = b.merkle_root ∧
        i < b.data.length ∧
        ∃ acc, applyTxs C (store.stateOf p.state_root)
            (b.data.take i) 0 [] = .ok acc ∧
          (b.data.getD i txDflt).transaction.nonce =
            (effAcct (store.stateOf p.state_root) acc
              (C.senderAddr (b.data.getD i txDflt))).nonce ∧
          (effAcct (store.stateOf p.state_root) acc
            (C.senderAddr (b.data.getD i txDflt))).balance <
            wadd (b.data.getD i txDflt).transaction.value
              (wmul (b.data.getD i txDflt).transaction.gas_price
                (b.data.getD i txDflt).transaction.gas_limit)
    | .stateRootMismatch => ∃ p, chkParentPowDiff C store b p ∧
        allSigsOk C b.data ∧
        b.coinbase.value = wadd BLOCK_REWARD (totalFee b.data) ∧
        merkleRoot C.hp (b.data.map C.txHash) = b.merkle_root ∧
        ∃ acc, applyTxs C (store.stateOf p.state_root) b.data 0 [] =
            .ok acc ∧
          C.trieHash (insert_batch trieFuel (store.stateOf p.state_root)
            (iter (applyCoinbase (store.stateOf p.state_root) b acc))).1 ≠
            b.state_root := by
  unfold execute_block at h
  cases hpb : store.blocks b.parent with
  | none =>
      rw [hpb] at h
      dsimp only at h
      injection h with h
      subst h
      rfl
  | some p =>
      rw [hpb] at h
      dsimp only at h
      by_cases hpow : b.difficulty < C.blockHash b
      · rw [if_pos hpow] at h
        injection h with h
        subst h
        exact ⟨⟨p, rfl⟩, hpow⟩
      · rw [if_neg hpow] at h
        by_cases hdiff : b.difficulty ≠ p.difficulty
        · rw [if_pos hdiff] at h
          injection h with h
          subst h
          exact ⟨p, rfl, Nat.le_of_not_lt hpow, hdiff⟩
        · rw [if_neg hdiff] at h
          have hdeq : b.difficulty = p.difficulty := by
            by_contra hc
            exact hdiff hc
          have hchk : chkParentPowDiff C store b p :=
            ⟨hpb, Nat.le_of_not_lt hpow, hdeq⟩
          cases hsf : sigCheckFee C b.data 0 0 with
          | error e' =>
              rw [hsf] at h
              dsimp only at h
              injection h with h
              obtain ⟨j, hj, he, hpre, hbad⟩ :=
                sigCheckFee_error C b.data 0 0 e' hsf
              have heq : e = ExecError.badSig j := by
                rw [← h, he, Nat.zero_add]
              subst heq
              exact ⟨⟨p, hchk⟩, hj, fun k hk => hpre k hk, hbad⟩
          | ok total_fee =>
              rw [hsf] at h
              dsimp only at h
              obtain ⟨hall, hfee⟩ := sigCheckFee_ok C b.data 0 0 total_fee hsf
              have hfee2 : total_fee = totalFee b.data := hfee
              by_cases hcb : b.coinbase.value ≠ wadd BLOCK_REWARD total_fee
              · rw [if_pos hcb] at h
                injection h with h
                subst h
                exact ⟨⟨p, hchk⟩, hall, by rw [← hfee2]; exact hcb⟩
              · rw [if_neg hcb] at h
                have hcbeq : b.coinbase.value =
                    wadd BLOCK_REWARD (totalFee b.data) := by
                  rw [← hfee2]
                  by_contra hc
                  exact hcb hc
                by_cases hmr : merkleRoot C.hp (b.data.map C.txHash) ≠
                    b.merkle_root
                · rw [if_pos hmr] at h
                  injection h with h
                  subst h
                  exact ⟨⟨p, hchk⟩, hall, hcbeq, hmr⟩
                · rw [if_neg hmr] at h
                  have hmreq : merkleRoot C.hp (b.data.map C.txHash) =
                      b.merkle_root := by
                    by_contra hc
                    exact hmr hc
                  cases hap : applyTxs C (store.stateOf p.state_root)
                      b.data 0 [] with
                  | error e' =>
                      rw [hap] at h
                      dsimp only at h
                      injection h with h
                      obtain ⟨j, acc, hj, hpre, hcase⟩ :=
                        applyTxs_error C (store.stateOf p.state_root)
                          b.data 0 [] e' hap
                      rcases hcase with ⟨he, hnon⟩ | ⟨he, hnon, hbal⟩
                      · have heq : e = ExecError.badNonce j := by
                          rw [← h, he, Nat.zero_add]
                        subst heq
                        exact ⟨p, hchk, hall, hcbeq, hmreq, hj,
                          acc, hpre, hnon⟩
                      · have heq : e = ExecError.insufficientBalance j := by
                          rw [← h, he, Nat.zero_add]
                        subst heq
                        exact ⟨p, hchk, hall, hcbeq, hmreq, hj,
                          acc, hpre, hnon, hbal⟩
                  | ok acc =>
                      rw [hap] at h
                      dsimp only at h
                      by_cases hsr : C.trieHash
                          (insert_batch trieFuel
                            (store.stateOf p.state_root)
                            (iter (applyCoinbase
                              (store.stateOf p.state_root) b acc))).1 ≠
                          b.state_root
                      · rw [if_pos hsr] at h
                        injection h with h
                        subst h
                        exact ⟨p, hchk, hall, hcbeq, hmreq, acc, hap, hsr⟩
                      · rw [if_neg hsr] at h
                        exact absurd h (by simp)

/-- A concrete block with all-zero fields, for instantiating theorems. -/
def blockDflt : Block := ⟨0, 0, 0, 0, 0, 0, ⟨0, 0, 0, ⟨[]⟩, 0, []⟩, []⟩

/-- Concrete crypto primitives, for instantiating theorems. -/
def cryptoDflt : Crypto :=
  ⟨fun _ => 0, fun _ => 0, fun a b => a + b, fun _ => true, fun _ => addrZ,
    fun _ => 0⟩

/-- A concrete empty store, for instantiating theorems. -/
def storeDflt : Store := ⟨fun _ => none, fun _ => .empty⟩

theorem execute_block_error_order_witness :
    storeDflt.blocks blockDflt.parent = none :=
  execute_block_error_order cryptoDflt id storeDflt blockDflt
    .parentNotFound rfl

theorem execute_block_deterministic_witness :
    (∀ (st : Trie) (l : List (Addr × Account)),
      (insert_batch trieFuel st (id l)).1 = (insert_batch trieFuel st (id l)).1) ∧
    (execute_block cryptoDflt id storeDflt blockDflt).isOk =
      (execute_block cryptoDflt id storeDflt blockDflt).isOk ∧
    ∀ bh₁ ns₁ bh₂ ns₂,
      execute_block cryptoDflt id storeDflt blockDflt = .ok (bh₁, ns₁) →
      execute_block cryptoDflt id storeDflt blockDflt = .ok (bh₂, ns₂) →
      bh₁ = bh₂ ∧ ∀ n, n ∈ ns₁ ↔ n ∈ ns₂ :=
  execute_block_deterministic cryptoDflt id id storeDflt blockDflt
    (fun l => List.Perm.refl l) (fun l => List.Perm.refl l)

/-! ## Blockchain commit (`src/blockchain/mod.rs`, `commit_block`) -/

/-- Association-list lookup keyed by a hash (`Nat`), the behaviour of the
store keyspaces (`blocks`, `meta`). -/
def lookupN {β : Type} : List (Nat × β) → Nat → Option β
  | [], _ => none
  | (k, v) :: rest, h => if k = h then some v else lookupN rest h

/-- The chain state `commit_block` manipulates: the `blocks` keyspace, the
`meta` height records, the persisted state nodes, and the tip hash. -/
structure ChainState where
  blocks : List (Nat × Block)
  heights : List (Nat × Nat)
  stateNodes : List Trie
  tip : Nat

/-- Source `Blockchain::contains_block`. -/
def containsBlock (st : ChainState) (h : Nat) : Bool :=
  (lookupN st.blocks h).isSome

/-- Source `Blockchain::get_height`: the recorded height, defaulting to 0
(`unwrap_or(0)`). -/
def getHeight (st : ChainState) (h : Nat) : Nat :=
  (lookupN st.heights h).getD 0

/-- Source `Blockchain::commit_block`: return early if the block is already known
or its parent is missing; otherwise persist the block and its state nodes,
record `height = parent height + 1`, and move the tip iff the new height
exceeds the tip's height (the tip height is read after the new height
record is written, as in the source). -/
def commit_block (bh : Block → Nat) (st : ChainState) (b : Block)
    (new_nodes : List Trie) : ChainState :=
  let block_hash := bh b
  if containsBlock st block_hash then st
  else if !containsBlock st b.parent then st
  else
    let current_height := getHeight st b.parent + 1
    let heights' := (block_hash, current_height) :: st.heights
    let tip_height := (lookupN heights' st.tip).getD 0
    if tip_height < current_height then
      ⟨(block_hash, b) :: st.blocks, heights', st.stateNodes ++ new_nodes,
        block_hash⟩
    else
      ⟨(block_hash, b) :: st.blocks, heights', st.stateNodes ++ new_nodes,
        st.tip⟩

/-- A sequence of `commit_block` calls. -/
def commitList (bh : Block → Nat) :
    ChainState → List (Block × List Trie) → ChainState
  | st, [] => st
  | st, (b, ns) :: rest => commitList bh (commit_block bh st b ns) rest

/-- One commit preserves "the tip is a stored block" and never lowers the
tip's height. -/
theorem commit_step (bh : Block → Nat) (st : ChainState) (b : Block)
    (ns : List Trie) (hinv : containsBlock st st.tip = true) :
    containsBlock (commit_block bh st b ns)
      (commit_block bh st b ns).tip = true ∧
    getHeight st st.tip ≤
      getHeight (commit_block bh st b ns) (commit_block bh st b ns).tip := by
  unfold commit_block
  by_cases hc : containsBlock st (bh b)
  · rw [if_pos hc]
    exact ⟨hinv, Nat.le_refl _⟩
  · rw [if_neg hc]
    by_cases hp : containsBlock st b.parent
    · rw [if_neg (by rw [hp]; decide)]
      have htip_ne : bh b ≠ st.tip := by
        intro heq
        rw [heq] at hc
        exact hc hinv
      have htiph : (lookupN ((bh b, getHeight st b.parent + 1) ::
          st.heights) st.tip).getD 0 = getHeight st st.tip := by
        unfold getHeight
        rw [lookupN, if_neg htip_ne]
      by_cases hmove : (lookupN ((bh b, getHeight st b.parent + 1) ::
          st.heights) st.tip).getD 0 < getHeight st b.parent + 1
      · rw [if_pos hmove]
        constructor
        · simp [containsBlock, lookupN]
        · rw [htiph] at hmove
          have hnew : getHeight
              ⟨(bh b, b) :: st.blocks,
                (bh b, getHeight st b.parent + 1) :: st.heights,
                st.stateNodes ++ ns, bh b⟩ (bh b) =
              getHeight st b.parent + 1 := by
            simp [getHeight, lookupN]
          rw [hnew]
          exact Nat.le_of_lt hmove
      · rw [if_neg hmove]
        constructor
        · simp only [containsBlock, lookupN, if_neg htip_ne]
          exact hinv
        · simp only [getHeight, lookupN, if_neg htip_ne]
          exact Nat.le_refl _
    · rw [if_pos (by rw [Bool.not_eq_true] at hp; rw [hp]; decide)]
      exact ⟨hinv, Nat.le_refl _⟩

/-- C5: `commit_block` moves the tip to the committed block iff the
block's height (parent height + 1) strictly exceeds the current tip's
height; on an equal or lower height the tip is unchanged (first-seen
wins); and the tip's height is non-decreasing across any sequence of
`commit_block` calls. -/
theorem commit_block_tip_monotone (bh : Block → Nat) (st : ChainState)
    (hinv : containsBlock st st.tip = true) :
    (∀ b ns, containsBlock st (bh b) = false →
      containsBlock st b.parent = true →
      ((commit_block bh st b ns).tip = bh b ↔
        getHeight st st.tip < getHeight st b.parent + 1) ∧
      (getHeight st b.parent + 1 ≤ getHeight st st.tip →
        (commit_block bh st b ns).tip = st.tip)) ∧
    ∀ bs, getHeight st st.tip ≤
      getHeight (commitList bh st bs) (commitList bh st bs).tip := by
  constructor
  · intro b ns hc hp
    have htip_ne : bh b ≠ st.tip := by
      intro heq
      rw [heq, hinv] at hc
      exact absurd hc (by decide)
    have htiph : (lookupN ((bh b, getHeight st b.parent + 1) ::
        st.heights) st.tip).getD 0 = getHeight st st.tip := by
      unfold getHeight
      rw [lookupN, if_neg htip_ne]
    unfold commit_block
    rw [if_neg (by rw [hc]; decide), if_neg (by rw [hp]; decide)]
    by_cases hmove : (lookupN ((bh b, getHeight st b.parent + 1) ::
        st.heights) st.tip).getD 0 < getHeight st b.parent + 1
    · rw [if_pos hmove]
      rw [htiph] at hmove
      exact ⟨⟨fun _ => hmove, fun _ => rfl⟩, fun hle => absurd hmove
        (by omega)⟩
    · rw [if_neg hmove]
      rw [htiph] at hmove
      refine ⟨⟨fun heq => absurd heq.symm htip_ne, fun hlt =>
        absurd hlt (by omega)⟩, fun _ => rfl⟩
  · intro bs
    induction bs generalizing st with
    | nil => exact Nat.le_refl _
    | cons bn rest ih =>
        obtain ⟨hinv2, hle⟩ := commit_step bh st bn.1 bn.2 hinv
        have hrest := ih (commit_block bh st bn.1 bn.2) hinv2
        calc getHeight st st.tip ≤ _ := hle
        _ ≤ _ := hrest

theorem commit_block_tip_monotone_witness :
    getHeight ⟨[(5, blockDflt)], [(5, 0)], [], 5⟩ 5 ≤
      getHeight (commitList (fun _ => 7) ⟨[(5, blockDflt)], [(5, 0)], [], 5⟩
          [])
        (commitList (fun _ => 7) ⟨[(5, blockDflt)], [(5, 0)], [], 5⟩ []).tip :=
  (commit_block_tip_monotone (fun _ => 7) ⟨[(5, blockDflt)], [(5, 0)], [], 5⟩
    (by decide)).2 []

theorem merkle_verify_proof_witness :
    verify (fun a b => a + 2 * b)
      (merkleRoot (fun a b => a + 2 * b) ([3, 5, 9].map (fun x => x + 1)))
      (([3, 5, 9].map (fun x : Nat => x + 1)).getD 2 0)
      (merkleProof (fun a b => a + 2 * b) ([3, 5, 9].map (fun x => x + 1)) 2)
      2 [3, 5, 9].length = true :=
  merkle_verify_proof (fun a b => a + 2 * b) (fun x => x + 1) [3, 5, 9] 2
    (by decide)

/-! ## Miner template assembly (`src/miner/mod.rs`, `miner_loop`)

The miner builds the block template's coinbase with

    Transaction::new(0, total_reward, 0, self.miner_address, 0, vec![])

where `total_reward = BLOCK_REWARD + total_fee` and `Transaction::new`'s
parameters are `(nonce, gas_price, gas_limit, to, value, data)`: the
reward lands in `gas_price` and `value` is 0. -/

/-- The coinbase transaction the miner assembles, exactly as the arguments
are passed in the source. -/
def minerCoinbase (miner_address : Addr) (total_fee : Nat) : Transaction :=
  Transaction.new 0 (wadd BLOCK_REWARD total_fee) 0 miner_address 0 []

/-- C1: evaluation at the failing input (a template over the empty
mempool).  The assembled coinbase has `value = 0`, not
`BLOCK_REWARD + total_fee = 50` as the spec requires — the reward is
passed in the `gas_price` position of `Transaction::new` — so
`execute_block`'s own coinbase check (check 5) rejects every block this
miner assembles. -/
theorem miner_coinbase_misassembled :
    (minerCoinbase addrZ (totalFee [])).value = 0 ∧
    wadd BLOCK_REWARD (totalFee []) = 50 ∧
    (minerCoinbase addrZ (totalFee [])).value ≠
      wadd BLOCK_REWARD (totalFee []) ∧
    (minerCoinbase addrZ (totalFee [])).gas_price =
      wadd BLOCK_REWARD (totalFee []) := by
  refine ⟨rfl, rfl, ?_, rfl⟩
  decide

/-! ## Gossip worker block processing (`src/network/worker.rs`)

The `Blocks` handler pushes each deliverable block on a process queue and
drains it: a block that executes is committed and the orphans keyed under
its hash are removed from the buffer and pushed on the queue; a block that
fails execution is skipped (`continue`) — the source removes nothing from
the orphan buffer in that case. -/

/-- Source `HashMap::remove` on the orphan buffer. -/
def eraseN {β : Type} : List (Nat × β) → Nat → List (Nat × β)
  | [], _ => []
  | (k, v) :: rest, h => if k = h then rest else (k, v) :: eraseN rest h

/-- Total number of orphan blocks held in the buffer. -/
def bufSize (buf : List (Nat × List Block)) : Nat :=
  (buf.map (fun e => e.2.length)).sum

theorem eraseN_size :
    ∀ (buf : List (Nat × List Block)) (h : Nat),
      bufSize (eraseN buf h) + ((lookupN buf h).getD []).length = bufSize buf
  | [], h => rfl
  | (k, v) :: rest, h => by
      by_cases hk : k = h
      · simp [eraseN, lookupN, hk, bufSize]
        omega
      · have ih := eraseN_size rest h
        simp [eraseN, lookupN, hk, bufSize] at *
        omega

/-- The queue-drain loop of the `Blocks` handler.  `execOk` abstracts
"`execute_block` succeeds for this block against the current store"; the
queue is kept top-first (`Vec::pop` takes the head here).  On success the
block's hash is recorded as committed and the orphans keyed under it are
drained into the queue; on failure the block is skipped and the buffer is
left untouched. -/
def processQueue (bh : Block → Nat) (execOk : Block → Bool) :
    List Block → List (Nat × List Block) → List Nat →
      List (Nat × List Block) × List Nat
  | [], buf, committed => (buf, committed)
  | blk :: queue, buf, committed =>
      if execOk blk then
        processQueue bh execOk
          (((lookupN buf (bh blk)).getD []).reverse ++ queue)
          (eraseN buf (bh blk)) (committed ++ [bh blk])
      else
        processQueue bh execOk queue buf committed
termination_by queue buf _ => queue.length + bufSize buf
decreasing_by
  · have hsz := eraseN_size buf (bh blk)
    simp only [List.length_append, List.length_reverse, List.length_cons]
    omega
  · simp only [List.length_cons]
    omega

/-- C3 counterexample: a concrete `Blocks` delivery where the queued block
fails execution.  The block is indeed not committed, but the orphan buffer
still contains the entry keyed by the failed block's hash after the
handler finishes — the source only removes buffer entries on successful
execution. -/
theorem worker_orphan_entry_retained :
    (processQueue (fun _ => 1) (fun _ => false) [blockDflt]
      [(1, [blockDflt])] []).2 = [] ∧
    lookupN (processQueue (fun _ => 1) (fun _ => false) [blockDflt]
      [(1, [blockDflt])] []).1 1 ≠ none := by
  have hrun : processQueue (fun _ => 1) (fun _ => false) [blockDflt]
      [(1, [blockDflt])] [] = ([(1, [blockDflt])], []) := by
    rw [processQueue]
    simp only [Bool.false_eq_true, if_false]
    rw [processQueue]
  rw [hrun]
  exact ⟨rfl, by simp [lookupN]⟩

/-- C3 (amended): when a queued block fails `execute_block`, the handler
commits nothing for it and drains none of its orphans — the orphan buffer
and the committed list are returned unchanged; in particular an entry
keyed by the failed block's hash stays in the buffer rather than being
dropped. -/
theorem worker_failed_block_not_committed (bh : Block → Nat)
    (execOk : Block → Bool) (b : Block) (buf : List (Nat × List Block))
    (committed : List Nat) (hfail : execOk b = false) :
    processQueue bh execOk [b] buf committed = (buf, committed) := by
  rw [processQueue, hfail]
  simp only [Bool.false_eq_true, if_false]
  rw [processQueue]

theorem worker_failed_block_not_committed_witness :
    processQueue (fun _ => 1) (fun _ => false) [blockDflt] [(2, [])] [] =
      ([(2, [])], []) :=
  worker_failed_block_not_committed (fun _ => 1) (fun _ => false) blockDflt
    [(2, [])] [] rfl

end BitcoinRs
